import Mathlib

/-!
Verification of the sequentia sequence-classification toolkit.

This file gives a shallow embedding of the parts of the library needed to
settle the frozen claims: the HMM topology engine
(`sequentia/models/hmm/topologies.py`), the HMM ensemble classifier
(`sequentia/classifiers/hmm/hmm_classifier.py`), the DTW k-nearest-neighbour
classifier (`sequentia/classifiers/dtwknn/dtwknn.py`) and the freeze/unfreeze
operations of the HMM variants
(`sequentia/models/hmm/variants/{gaussian_mixture,multinomial}.py`).

Real-valued quantities are embedded as rationals; the two numpy comparison
tolerances (`atol = 1e-8`, `rtol = 1e-5`) are carried explicitly.  Delegated
library functions (hmmlearn forward probabilities, fastdtw distances, numpy
argpartition, the random tie-break choice) enter as explicit parameters,
constrained only by the contract the caller relies on.
-/

namespace Sequentia

namespace Topologies

/-- Default absolute tolerance of numpy isclose/allclose (1e-8). -/
def atol : ℚ := 1 / 100000000

/-- Default relative tolerance of numpy isclose/allclose (1e-5). -/
def rtol : ℚ := 1 / 100000

/-- One scalar comparison of numpy allclose: |a - b| <= atol + rtol * |b|. -/
def npIsClose (a b : ℚ) : Bool := decide (|a - b| ≤ atol + rtol * |b|)

/-- Matrix entry access, defaulting to 0 outside the stored data. -/
def entry (A : List (List ℚ)) (i j : ℕ) : ℚ := (A.getD i []).getD j 0

/-- The shape test of `_Topology.check_transitions`:
the matrix must be n x n. -/
def shapeOk (n : ℕ) (A : List (List ℚ)) : Bool :=
  (A.length == n) && A.all (fun r => r.length == n)

/-- The row-normalisation test of `_Topology.check_transitions`:
allclose(transitions.sum(axis=1), ones(n)). -/
def rowSumsClose (A : List (List ℚ)) : Bool :=
  A.all (fun r => npIsClose r.sum 1)

/-- The error taxonomy of transition/initial-distribution validation. -/
inductive TopologyError where
  | shape
  | normalization
  | structural
deriving DecidableEq, Repr

/-- `_Topology.check_transitions`: shape error, then row-sum error. -/
def check_transitions (n : ℕ) (A : List (List ℚ)) : Except TopologyError Unit :=
  if !shapeOk n A then .error .shape
  else if !rowSumsClose A then .error .normalization
  else .ok ()

/-- `_Topology.check_start_probs`: shape error, then sum error. -/
def check_start_probs (n : ℕ) (v : List ℚ) : Except TopologyError Unit :=
  if !(v.length == n) then .error .shape
  else if !npIsClose v.sum 1 then .error .normalization
  else .ok ()

/-- np.all(transitions > 0), used by the ergodic warning check. -/
def allPositive (A : List (List ℚ)) : Bool :=
  A.all (fun r => r.all (fun x => decide (0 < x)))

/-- `_ErgodicTopology.check_transitions`: the base checks, then a
non-fatal warning (returned as `true`) when some entry is not positive. -/
def ergodic_check_transitions (n : ℕ) (A : List (List ℚ)) :
    Except TopologyError Bool :=
  (check_transitions n A).map (fun _ => !allPositive A)

/-- allclose(transitions, triu(transitions)): every entry strictly below the
diagonal must be within atol of zero (entries on or above the diagonal are
compared with themselves). -/
def triuClose (A : List (List ℚ)) : Bool :=
  (List.range A.length).all (fun i =>
    (List.range (A.getD i []).length).all (fun j =>
      decide (i ≤ j) || decide (|entry A i j| ≤ atol)))

/-- `_LeftRightTopology.check_transitions`: base checks, then the
upper-triangular structure check. -/
def leftright_check_transitions (n : ℕ) (A : List (List ℚ)) :
    Except TopologyError Unit :=
  match check_transitions n A with
  | .error e => .error e
  | .ok _ => if triuClose A then .ok () else .error .structural

/-- allclose(transitions, diag(diag(transitions)) + superdiag): every entry
off the main diagonal and first superdiagonal must be within atol of zero. -/
def linearPatternClose (A : List (List ℚ)) : Bool :=
  (List.range A.length).all (fun i =>
    (List.range (A.getD i []).length).all (fun j =>
      (j == i) || (j == i + 1) || decide (|entry A i j| ≤ atol)))

/-- `_LinearTopology.check_transitions`: the inherited left-right checks
(its superclass), then the diagonal + superdiagonal structure check. -/
def linear_check_transitions (n : ℕ) (A : List (List ℚ)) :
    Except TopologyError Unit :=
  match leftright_check_transitions n A with
  | .error e => .error e
  | .ok _ => if linearPatternClose A then .ok () else .error .structural

/-- A probability vector of length k: the abstraction of one Dirichlet
sample drawn by the random generation modes (delegated to numpy). -/
structure ProbVec (k : ℕ) where
  val : List ℚ
  len_eq : val.length = k
  nonneg : ∀ x ∈ val, 0 ≤ x
  sum_one : val.sum = 1

/-- `_Topology.uniform_start_probs`: ones(n) / n. -/
def uniform_start_probs (n : ℕ) : List ℚ :=
  List.replicate n ((1 : ℚ) / n)

/-- `_Topology.random_start_probs`: one Dirichlet(1,...,1) sample over n. -/
def random_start_probs (n : ℕ) (d : ProbVec n) : List ℚ := d.val

/-- `_ErgodicTopology.uniform_transitions`: ones((n, n)) / n. -/
def ergodic_uniform_transitions (n : ℕ) : List (List ℚ) :=
  List.replicate n (List.replicate n ((1 : ℚ) / n))

/-- `_ErgodicTopology.random_transitions`: each row an independent
Dirichlet sample over all n states. -/
def ergodic_random_transitions (n : ℕ) (d : Fin n → ProbVec n) :
    List (List ℚ) :=
  List.ofFn (fun i => (d i).val)

/-- `_LeftRightTopology.uniform_transitions`: row i is 1/(n-i) on columns
i..n-1 and 0 before the diagonal. -/
def leftright_uniform_transitions (n : ℕ) : List (List ℚ) :=
  List.ofFn (fun i : Fin n =>
    List.replicate (i : ℕ) 0 ++
      List.replicate (n - (i : ℕ)) ((1 : ℚ) / ((n - (i : ℕ) : ℕ) : ℚ)))

/-- `_LeftRightTopology.random_transitions`: row i starts as zeros and
row[i:] is a Dirichlet sample over the n-i free states. -/
def leftright_random_transitions (n : ℕ)
    (d : (i : Fin n) → ProbVec (n - (i : ℕ))) : List (List ℚ) :=
  List.ofFn (fun i => List.replicate (i : ℕ) 0 ++ (d i).val)

/-- `_LinearTopology.uniform_transitions`: row i places 1/size on the
size = min(2, n-i) columns i..i+size-1 and 0 elsewhere. -/
def linear_uniform_transitions (n : ℕ) : List (List ℚ) :=
  List.ofFn (fun i : Fin n =>
    List.replicate (i : ℕ) 0 ++
      List.replicate (min 2 (n - (i : ℕ))) ((1 : ℚ) / ((min 2 (n - (i : ℕ)) : ℕ) : ℚ)) ++
      List.replicate (n - (i : ℕ) - min 2 (n - (i : ℕ))) 0)

/-- `_LinearTopology.random_transitions`: row i places a Dirichlet sample of
size min(2, n-i) on columns i..i+size-1 and 0 elsewhere. -/
def linear_random_transitions (n : ℕ)
    (d : (i : Fin n) → ProbVec (min 2 (n - (i : ℕ)))) : List (List ℚ) :=
  List.ofFn (fun i =>
    List.replicate (i : ℕ) 0 ++ (d i).val ++
      List.replicate (n - (i : ℕ) - min 2 (n - (i : ℕ))) 0)

theorem atol_pos : 0 < atol := by norm_num [atol]

theorem npIsClose_self (a : ℚ) : npIsClose a a = true := by
  simp only [npIsClose, decide_eq_true_eq, sub_self, abs_zero, atol, rtol]
  positivity

theorem sum_replicate_div (k : ℕ) (hk : 1 ≤ k) :
    (List.replicate k ((1 : ℚ) / k)).sum = 1 := by
  have hk0 : (k : ℚ) ≠ 0 := Nat.cast_ne_zero.mpr (by omega)
  rw [List.sum_replicate, nsmul_eq_mul]
  field_simp

theorem sum_zero_pad (a b : ℕ) (v : List ℚ) :
    (List.replicate a (0 : ℚ) ++ v ++ List.replicate b (0 : ℚ)).sum = v.sum := by
  simp [List.sum_append, List.sum_replicate]

theorem sum_zero_pad_left (a : ℕ) (v : List ℚ) :
    (List.replicate a (0 : ℚ) ++ v).sum = v.sum := by
  simp [List.sum_append, List.sum_replicate]

theorem shapeOk_iff (n : ℕ) (A : List (List ℚ)) :
    shapeOk n A = true ↔ A.length = n ∧ ∀ r ∈ A, r.length = n := by
  simp [shapeOk, List.all_eq_true]

theorem rowSumsClose_of_exact (A : List (List ℚ)) (h : ∀ r ∈ A, r.sum = 1) :
    rowSumsClose A = true := by
  simp only [rowSumsClose, List.all_eq_true]
  intro r hr
  rw [h r hr]
  exact npIsClose_self 1

theorem check_transitions_ok (n : ℕ) (A : List (List ℚ))
    (h1 : shapeOk n A = true) (h2 : rowSumsClose A = true) :
    check_transitions n A = .ok () := by
  simp [check_transitions, h1, h2]

theorem entry_ofFn {n : ℕ} (f : Fin n → List ℚ) (i j : ℕ) (hi : i < n) :
    entry (List.ofFn f) i j = (f ⟨i, hi⟩).getD j 0 := by
  unfold entry
  congr 1
  rw [List.getD_eq_getElem _ _ (by simpa using hi), List.getElem_ofFn]

theorem getD_replicate_zero (a : ℕ) (j : ℕ) :
    (List.replicate a (0 : ℚ)).getD j 0 = 0 := by
  rcases lt_or_ge j a with h | h
  · rw [List.getD_eq_getElem _ _ (by simpa using h), List.getElem_replicate]
  · rw [List.getD_eq_default _ _ (by simpa using h)]

theorem getD_zero_pad_left (a : ℕ) (rest : List ℚ) (j : ℕ) (hj : j < a) :
    (List.replicate a (0 : ℚ) ++ rest).getD j 0 = 0 := by
  rw [List.getD_append _ _ _ _ (by simpa using hj)]
  exact getD_replicate_zero a j

theorem triuClose_of_zero (A : List (List ℚ))
    (h : ∀ i j, i < A.length → j < (A.getD i []).length → j < i → entry A i j = 0) :
    triuClose A = true := by
  simp only [triuClose, List.all_eq_true, List.mem_range, Bool.or_eq_true,
    decide_eq_true_eq]
  intro i hi j hj
  rcases le_or_lt i j with hij | hij
  · exact Or.inl hij
  · right
    rw [h i j hi hj hij]
    simpa using atol_pos.le

theorem linearPatternClose_of_zero (A : List (List ℚ))
    (h : ∀ i j, i < A.length → j < (A.getD i []).length → j ≠ i → j ≠ i + 1 →
      entry A i j = 0) :
    linearPatternClose A = true := by
  simp only [linearPatternClose, List.all_eq_true, List.mem_range, Bool.or_eq_true,
    beq_iff_eq, decide_eq_true_eq]
  intro i hi j hj
  by_cases h1 : j = i
  · exact Or.inl (Or.inl h1)
  by_cases h2 : j = i + 1
  · exact Or.inl (Or.inr h2)
  · refine Or.inr ?_
    rw [h i j hi hj h1 h2]
    simpa using atol_pos.le

theorem leftright_check_ok_of (n : ℕ) (A : List (List ℚ))
    (h1 : shapeOk n A = true) (h2 : rowSumsClose A = true)
    (h3 : triuClose A = true) :
    leftright_check_transitions n A = .ok () := by
  simp [leftright_check_transitions, check_transitions_ok n A h1 h2, h3]

theorem linear_check_ok_of (n : ℕ) (A : List (List ℚ))
    (h1 : shapeOk n A = true) (h2 : rowSumsClose A = true)
    (h3 : triuClose A = true) (h4 : linearPatternClose A = true) :
    linear_check_transitions n A = .ok () := by
  simp [linear_check_transitions, leftright_check_ok_of n A h1 h2 h3, h4]

theorem ergodic_uniform_passes (n : ℕ) (hn : 1 ≤ n) :
    ergodic_check_transitions n (ergodic_uniform_transitions n) = .ok false := by
  have h1 : shapeOk n (ergodic_uniform_transitions n) = true := by
    rw [shapeOk_iff]
    refine ⟨List.length_replicate .., fun r hr => ?_⟩
    rw [List.eq_of_mem_replicate hr, List.length_replicate]
  have h2 : rowSumsClose (ergodic_uniform_transitions n) = true := by
    apply rowSumsClose_of_exact
    intro r hr
    rw [List.eq_of_mem_replicate hr]
    exact sum_replicate_div n hn
  have h3 : allPositive (ergodic_uniform_transitions n) = true := by
    simp only [allPositive, List.all_eq_true, decide_eq_true_eq]
    intro r hr x hx
    rw [List.eq_of_mem_replicate hr] at hx
    rw [List.eq_of_mem_replicate hx]
    exact div_pos one_pos (by exact_mod_cast hn)
  simp only [ergodic_check_transitions, check_transitions_ok n _ h1 h2, h3]
  rfl

theorem ergodic_random_passes (n : ℕ) (d : Fin n → ProbVec n) :
    (ergodic_check_transitions n (ergodic_random_transitions n d)).isOk = true := by
  have h1 : shapeOk n (ergodic_random_transitions n d) = true := by
    rw [shapeOk_iff]
    refine ⟨by simp [ergodic_random_transitions], fun r hr => ?_⟩
    simp only [ergodic_random_transitions, List.mem_ofFn, Set.mem_range] at hr
    obtain ⟨i, rfl⟩ := hr
    exact (d i).len_eq
  have h2 : rowSumsClose (ergodic_random_transitions n d) = true := by
    apply rowSumsClose_of_exact
    intro r hr
    simp only [ergodic_random_transitions, List.mem_ofFn, Set.mem_range] at hr
    obtain ⟨i, rfl⟩ := hr
    exact (d i).sum_one
  simp only [ergodic_check_transitions, check_transitions_ok n _ h1 h2]
  rfl

theorem leftright_uniform_passes (n : ℕ) :
    leftright_check_transitions n (leftright_uniform_transitions n) = .ok () := by
  apply leftright_check_ok_of
  · rw [shapeOk_iff]
    refine ⟨by simp [leftright_uniform_transitions], fun r hr => ?_⟩
    simp only [leftright_uniform_transitions, List.mem_ofFn, Set.mem_range] at hr
    obtain ⟨i, rfl⟩ := hr
    have := i.isLt
    simp only [List.length_append, List.length_replicate]
    omega
  · apply rowSumsClose_of_exact
    intro r hr
    simp only [leftright_uniform_transitions, List.mem_ofFn, Set.mem_range] at hr
    obtain ⟨i, rfl⟩ := hr
    rw [sum_zero_pad_left]
    exact sum_replicate_div _ (by have := i.isLt; omega)
  · apply triuClose_of_zero
    intro i j hi hj hji
    simp only [leftright_uniform_transitions, List.length_ofFn] at hi
    rw [leftright_uniform_transitions, entry_ofFn _ i j hi]
    exact getD_zero_pad_left _ _ _ hji

theorem leftright_random_passes (n : ℕ)
    (d : (i : Fin n) → ProbVec (n - (i : ℕ))) :
    leftright_check_transitions n (leftright_random_transitions n d) = .ok () := by
  apply leftright_check_ok_of
  · rw [shapeOk_iff]
    refine ⟨by simp [leftright_random_transitions], fun r hr => ?_⟩
    simp only [leftright_random_transitions, List.mem_ofFn, Set.mem_range] at hr
    obtain ⟨i, rfl⟩ := hr
    have := i.isLt
    simp only [List.length_append, List.length_replicate, (d i).len_eq]
    omega
  · apply rowSumsClose_of_exact
    intro r hr
    simp only [leftright_random_transitions, List.mem_ofFn, Set.mem_range] at hr
    obtain ⟨i, rfl⟩ := hr
    rw [sum_zero_pad_left]
    exact (d i).sum_one
  · apply triuClose_of_zero
    intro i j hi hj hji
    simp only [leftright_random_transitions, List.length_ofFn] at hi
    rw [leftright_random_transitions, entry_ofFn _ i j hi]
    exact getD_zero_pad_left _ _ _ hji

theorem linear_row_shape (n : ℕ) (i : ℕ) (hi : i < n) (core : List ℚ)
    (hc : core.length = min 2 (n - i)) :
    (List.replicate i (0 : ℚ) ++ core ++
      List.replicate (n - i - min 2 (n - i)) (0 : ℚ)).length = n := by
  simp only [List.length_append, List.length_replicate, hc]
  omega

theorem linear_row_entry_zero (n : ℕ) (i : ℕ) (hi : i < n) (core : List ℚ)
    (hc : core.length = min 2 (n - i)) (j : ℕ) (h1 : j ≠ i) (h2 : j ≠ i + 1) :
    (List.replicate i (0 : ℚ) ++ core ++
      List.replicate (n - i - min 2 (n - i)) (0 : ℚ)).getD j 0 = 0 := by
  have hm : min 2 (n - i) ≤ 2 := min_le_left _ _
  have hlen : (List.replicate i (0 : ℚ) ++ core).length = i + min 2 (n - i) := by
    simp [hc]
  rcases lt_or_ge j i with hj | hj
  · have hj1 : j < (List.replicate i (0 : ℚ) ++ core).length := by omega
    rw [List.getD_append _ _ _ _ hj1]
    exact getD_zero_pad_left _ _ _ hj
  · have hj2 : (List.replicate i (0 : ℚ) ++ core).length ≤ j := by omega
    rw [List.getD_append_right _ _ _ _ hj2]
    exact getD_replicate_zero _ _

theorem linear_generic_passes (n : ℕ) (core : Fin n → List ℚ)
    (hlen : ∀ i, (core i).length = min 2 (n - (i : ℕ)))
    (hsum : ∀ i, (core i).sum = 1) :
    linear_check_transitions n (List.ofFn (fun i : Fin n =>
      List.replicate (i : ℕ) 0 ++ core i ++
        List.replicate (n - (i : ℕ) - min 2 (n - (i : ℕ))) 0)) = .ok () := by
  apply linear_check_ok_of
  · rw [shapeOk_iff]
    refine ⟨by simp, fun r hr => ?_⟩
    simp only [List.mem_ofFn, Set.mem_range] at hr
    obtain ⟨i, rfl⟩ := hr
    exact linear_row_shape n i i.isLt (core i) (hlen i)
  · apply rowSumsClose_of_exact
    intro r hr
    simp only [List.mem_ofFn, Set.mem_range] at hr
    obtain ⟨i, rfl⟩ := hr
    rw [sum_zero_pad]
    exact hsum i
  · apply triuClose_of_zero
    intro i j hi hj hji
    simp only [List.length_ofFn] at hi
    rw [entry_ofFn _ i j hi]
    exact linear_row_entry_zero n i hi (core ⟨i, hi⟩) (hlen ⟨i, hi⟩) j
      (by omega) (by omega)
  · apply linearPatternClose_of_zero
    intro i j hi hj h1 h2
    simp only [List.length_ofFn] at hi
    rw [entry_ofFn _ i j hi]
    exact linear_row_entry_zero n i hi (core ⟨i, hi⟩) (hlen ⟨i, hi⟩) j h1 h2

/-- C6: for every topology kind in {ergodic, left-right, linear}, every state
count n ≥ 1 and both generation modes (uniform, and random with arbitrary
Dirichlet samples for the free entries), the transition matrix produced by the
generator passes the corresponding validation without raising any error. -/
theorem c6_generate_validate (n : ℕ) (hn : 1 ≤ n)
    (de : Fin n → ProbVec n)
    (dl : (i : Fin n) → ProbVec (n - (i : ℕ)))
    (dn : (i : Fin n) → ProbVec (min 2 (n - (i : ℕ)))) :
    (ergodic_check_transitions n (ergodic_uniform_transitions n)).isOk = true ∧
    (ergodic_check_transitions n (ergodic_random_transitions n de)).isOk = true ∧
    leftright_check_transitions n (leftright_uniform_transitions n) = .ok () ∧
    leftright_check_transitions n (leftright_random_transitions n dl) = .ok () ∧
    linear_check_transitions n (linear_uniform_transitions n) = .ok () ∧
    linear_check_transitions n (linear_random_transitions n dn) = .ok () := by
  refine ⟨?_, ergodic_random_passes n de, leftright_uniform_passes n,
    leftright_random_passes n dl, ?_, ?_⟩
  · rw [ergodic_uniform_passes n hn]
    rfl
  · have := linear_generic_passes n
      (fun i => List.replicate (min 2 (n - (i : ℕ)))
        ((1 : ℚ) / ((min 2 (n - (i : ℕ)) : ℕ) : ℚ)))
      (fun i => List.length_replicate ..)
      (fun i => sum_replicate_div _ (by have := i.isLt; omega))
    simpa [linear_uniform_transitions] using this
  · exact linear_generic_passes n (fun i => (dn i).val)
      (fun i => (dn i).len_eq) (fun i => (dn i).sum_one)

def probVecHalf : ProbVec 2 :=
  ⟨[1/2, 1/2], rfl, by intro x hx; fin_cases hx <;> norm_num, by norm_num⟩

def probVecSingle : ProbVec 1 :=
  ⟨[1], rfl, by intro x hx; fin_cases hx <;> norm_num, by norm_num⟩

def witDe : Fin 2 → ProbVec 2 := fun _ => probVecHalf

def witDl : (i : Fin 2) → ProbVec (2 - (i : ℕ)) := fun i =>
  match i with
  | ⟨0, _⟩ => probVecHalf
  | ⟨1, _⟩ => probVecSingle

def witDn : (i : Fin 2) → ProbVec (min 2 (2 - (i : ℕ))) := fun i =>
  match i with
  | ⟨0, _⟩ => probVecHalf
  | ⟨1, _⟩ => probVecSingle

/-- Witness for C6 at n = 2 with concrete Dirichlet samples. -/
theorem c6_generate_validate_witness :
    1 ≤ 2 ∧
    (leftright_check_transitions 2 (leftright_random_transitions 2 witDl) = .ok () ∧
     linear_check_transitions 2 (linear_random_transitions 2 witDn) = .ok ()) :=
  ⟨by norm_num,
   (c6_generate_validate 2 (by norm_num) witDe witDl witDn).2.2.2.1,
   (c6_generate_validate 2 (by norm_num) witDe witDl witDn).2.2.2.2.2⟩

theorem getD_replicate_of_lt {α : Type} (a : α) (d : α) {n i : ℕ} (h : i < n) :
    (List.replicate n a).getD i d = a := by
  rw [List.getD_eq_getElem _ _ (by simpa using h), List.getElem_replicate]

theorem getD_middle (a : ℕ) (mid suf : List ℚ) (j : ℕ) (h1 : a ≤ j)
    (h2 : j - a < mid.length) :
    (List.replicate a (0 : ℚ) ++ mid ++ suf).getD j 0 = mid.getD (j - a) 0 := by
  rw [List.append_assoc, List.getD_append_right _ _ _ _ (by simpa using h1),
    List.getD_append _ _ _ _ (by simpa using h2)]
  simp

/-- C7: uniform-mode generation yields exactly the closed-form values: the
initial distribution is 1/n everywhere; the ergodic matrix is 1/n everywhere;
left-right row i is 1/(n-i) on columns i..n-1 and 0 elsewhere; linear row i is
1/2 on columns i and i+1 (1 on column i for the last row) and 0 elsewhere. -/
theorem c7_uniform_values (n : ℕ) (hn : 1 ≤ n) :
    ((uniform_start_probs n).length = n ∧
      ∀ j < n, (uniform_start_probs n).getD j 0 = 1 / n) ∧
    (∀ i < n, ∀ j < n, entry (ergodic_uniform_transitions n) i j = 1 / n) ∧
    (∀ i < n, ∀ j < n,
      entry (leftright_uniform_transitions n) i j =
        if i ≤ j then (1 : ℚ) / ((n - i : ℕ) : ℚ) else 0) ∧
    (∀ i < n, ∀ j < n,
      entry (linear_uniform_transitions n) i j =
        if i = n - 1 then (if j = i then 1 else 0)
        else if j = i ∨ j = i + 1 then 1 / 2 else 0) := by
  refine ⟨⟨List.length_replicate .., fun j hj => getD_replicate_of_lt _ _ hj⟩,
    ?_, ?_, ?_⟩
  · intro i hi j hj
    unfold entry ergodic_uniform_transitions
    rw [getD_replicate_of_lt _ _ hi, getD_replicate_of_lt _ _ hj]
  · intro i hi j hj
    rw [leftright_uniform_transitions, entry_ofFn _ i j hi]
    rcases le_or_lt i j with hij | hij
    · rw [if_pos hij, List.getD_append_right _ _ _ _ (by simpa using hij)]
      simp only [List.length_replicate]
      exact getD_replicate_of_lt _ _ (by omega)
    · rw [if_neg (by omega)]
      exact getD_zero_pad_left _ _ _ hij
  · intro i hi j hj
    rw [linear_uniform_transitions, entry_ofFn _ i j hi]
    by_cases hlast : i = n - 1
    · have hsz : min 2 (n - i) = 1 := by omega
      by_cases hji : j = i
      · rw [if_pos hlast, if_pos hji, hji, hsz,
          getD_middle i (List.replicate 1 ((1 : ℚ) / ((1 : ℕ) : ℚ))) _ i le_rfl
            (by rw [List.length_replicate]; omega)]
        simp only [Nat.sub_self]
        rw [getD_replicate_of_lt _ _ (by omega)]
        norm_num
      · rw [if_pos hlast, if_neg hji]
        exact linear_row_entry_zero n i hi _ (by simp [hsz]) j hji (by omega)
    · have hsz : min 2 (n - i) = 2 := by omega
      by_cases hji : j = i ∨ j = i + 1
      · rw [if_neg hlast, if_pos hji, hsz,
          getD_middle i (List.replicate 2 ((1 : ℚ) / ((2 : ℕ) : ℚ))) _ j (by omega)
            (by rw [List.length_replicate]; omega)]
        rw [getD_replicate_of_lt _ _ (by omega)]
        norm_num
      · rw [if_neg hlast, if_neg hji]
        push_neg at hji
        exact linear_row_entry_zero n i hi _ (by simp [hsz]) j hji.1 hji.2

/-- Witness for C7: the linear uniform matrix at n = 3 has the closed-form
entry 1/2 at position (1,2) and 1 at position (2,2). -/
theorem c7_uniform_values_witness :
    1 ≤ 3 ∧
    entry (linear_uniform_transitions 3) 1 2 = 1 / 2 ∧
    entry (linear_uniform_transitions 3) 2 2 = 1 := by
  have h := (c7_uniform_values 3 (by norm_num)).2.2.2
  refine ⟨by norm_num, ?_, ?_⟩
  · rw [h 1 (by norm_num) 2 (by norm_num)]
    norm_num
  · rw [h 2 (by norm_num) 2 (by norm_num)]
    norm_num

theorem getD_mem_of_lt {α : Type} (l : List α) (d : α) {n : ℕ} (h : n < l.length) :
    l.getD n d ∈ l := by
  rw [List.getD_eq_getElem _ _ h]
  exact List.getElem_mem h

theorem rowSumsClose_iff (A : List (List ℚ)) :
    rowSumsClose A = true ↔ ∀ r ∈ A, |r.sum - 1| ≤ atol + rtol := by
  simp [rowSumsClose, npIsClose, List.all_eq_true]

theorem triuClose_iff (A : List (List ℚ)) :
    triuClose A = true ↔ ∀ i j, i < A.length → j < (A.getD i []).length → j < i →
      |entry A i j| ≤ atol := by
  simp only [triuClose, List.all_eq_true, List.mem_range, Bool.or_eq_true,
    decide_eq_true_eq]
  constructor
  · intro h i j hi hj hji
    rcases h i hi j hj with h' | h'
    · omega
    · exact h'
  · intro h i hi j hj
    rcases le_or_lt i j with hij | hij
    · exact Or.inl hij
    · exact Or.inr (h i j hi hj hij)

theorem linearPatternClose_iff (A : List (List ℚ)) :
    linearPatternClose A = true ↔ ∀ i j, i < A.length → j < (A.getD i []).length →
      j ≠ i → j ≠ i + 1 → |entry A i j| ≤ atol := by
  simp only [linearPatternClose, List.all_eq_true, List.mem_range, Bool.or_eq_true,
    beq_iff_eq, decide_eq_true_eq]
  constructor
  · intro h i j hi hj h1 h2
    rcases h i hi j hj with (h' | h') | h'
    · exact absurd h' h1
    · exact absurd h' h2
    · exact h'
  · intro h i hi j hj
    by_cases h1 : j = i
    · exact Or.inl (Or.inl h1)
    by_cases h2 : j = i + 1
    · exact Or.inl (Or.inr h2)
    · exact Or.inr (h i j hi hj h1 h2)

theorem leftright_check_eq (n : ℕ) (A : List (List ℚ)) :
    leftright_check_transitions n A =
      if shapeOk n A then
        if rowSumsClose A then
          if triuClose A then .ok () else .error .structural
        else .error .normalization
      else .error .shape := by
  unfold leftright_check_transitions check_transitions
  cases shapeOk n A <;> cases rowSumsClose A <;> cases triuClose A <;> simp

theorem linear_check_eq (n : ℕ) (A : List (List ℚ)) :
    linear_check_transitions n A =
      if shapeOk n A then
        if rowSumsClose A then
          if triuClose A then
            (if linearPatternClose A then .ok () else .error .structural)
          else .error .structural
        else .error .normalization
      else .error .shape := by
  unfold linear_check_transitions
  rw [leftright_check_eq]
  cases shapeOk n A <;> cases rowSumsClose A <;> cases triuClose A <;>
    cases linearPatternClose A <;> simp

theorem ergodic_check_eq (n : ℕ) (A : List (List ℚ)) :
    ergodic_check_transitions n A =
      if shapeOk n A then
        if rowSumsClose A then .ok (!allPositive A)
        else .error .normalization
      else .error .shape := by
  unfold ergodic_check_transitions check_transitions
  cases shapeOk n A <;> cases rowSumsClose A <;> simp [Except.map]

theorem triu_of_linearPattern (A : List (List ℚ))
    (h : linearPatternClose A = true) : triuClose A = true := by
  rw [triuClose_iff]
  rw [linearPatternClose_iff] at h
  intro i j hi hj hji
  exact h i j hi hj (by omega) (by omega)

/-- C8: transition-matrix validation errors exactly as described: a shape
error when the matrix is not n x n, a normalization error when some row sum
is not 1 within tolerance, a structural error when the kind's zero-pattern is
violated (upper-triangular for left-right, diagonal plus first superdiagonal
for linear); the ergodic check has no structural failure, and an n x n matrix
with valid row sums and a zero entry makes it warn (return flag true) while
still returning normally. -/
theorem c8_validation_errors (n : ℕ) (A : List (List ℚ)) :
    (leftright_check_transitions n A = .error .shape ↔
      ¬ (A.length = n ∧ ∀ r ∈ A, r.length = n)) ∧
    (leftright_check_transitions n A = .error .normalization ↔
      (A.length = n ∧ ∀ r ∈ A, r.length = n) ∧
      ¬ (∀ r ∈ A, |r.sum - 1| ≤ atol + rtol)) ∧
    (leftright_check_transitions n A = .error .structural ↔
      (A.length = n ∧ ∀ r ∈ A, r.length = n) ∧
      (∀ r ∈ A, |r.sum - 1| ≤ atol + rtol) ∧
      ¬ (∀ i j, i < A.length → j < (A.getD i []).length → j < i →
            |entry A i j| ≤ atol)) ∧
    (linear_check_transitions n A = .error .shape ↔
      ¬ (A.length = n ∧ ∀ r ∈ A, r.length = n)) ∧
    (linear_check_transitions n A = .error .normalization ↔
      (A.length = n ∧ ∀ r ∈ A, r.length = n) ∧
      ¬ (∀ r ∈ A, |r.sum - 1| ≤ atol + rtol)) ∧
    (linear_check_transitions n A = .error .structural ↔
      (A.length = n ∧ ∀ r ∈ A, r.length = n) ∧
      (∀ r ∈ A, |r.sum - 1| ≤ atol + rtol) ∧
      ¬ (∀ i j, i < A.length → j < (A.getD i []).length → j ≠ i → j ≠ i + 1 →
            |entry A i j| ≤ atol)) ∧
    (ergodic_check_transitions n A = .error .shape ↔
      ¬ (A.length = n ∧ ∀ r ∈ A, r.length = n)) ∧
    (ergodic_check_transitions n A = .error .normalization ↔
      (A.length = n ∧ ∀ r ∈ A, r.length = n) ∧
      ¬ (∀ r ∈ A, |r.sum - 1| ≤ atol + rtol)) ∧
    ((A.length = n ∧ ∀ r ∈ A, r.length = n) →
      (∀ r ∈ A, |r.sum - 1| ≤ atol + rtol) →
      ∃ b, ergodic_check_transitions n A = .ok b) ∧
    ((A.length = n ∧ ∀ r ∈ A, r.length = n) →
      (∀ r ∈ A, |r.sum - 1| ≤ atol + rtol) →
      ∀ i j, i < A.length → j < (A.getD i []).length → entry A i j = 0 →
        ergodic_check_transitions n A = .ok true) := by
  rw [← shapeOk_iff, ← rowSumsClose_iff, ← triuClose_iff, ← linearPatternClose_iff]
  rw [leftright_check_eq, linear_check_eq, ergodic_check_eq]
  have hwarn : ∀ i j, i < A.length → j < (A.getD i []).length → entry A i j = 0 →
      allPositive A = false := by
    intro i j hi hj hz
    rw [← Bool.not_eq_true]
    simp only [allPositive, List.all_eq_true, decide_eq_true_eq]
    intro hall
    have hx := hall _ (getD_mem_of_lt A [] hi) _ (getD_mem_of_lt _ 0 hj)
    rw [show (A.getD i []).getD j 0 = entry A i j from rfl, hz] at hx
    exact lt_irrefl 0 hx
  have himp := triu_of_linearPattern A
  refine ⟨?_, ?_, ?_, ?_, ?_, ?_, ?_, ?_, ?_, ?_⟩
  · cases hS : shapeOk n A <;> cases hN : rowSumsClose A <;>
      cases hT : triuClose A <;> simp
  · cases hS : shapeOk n A <;> cases hN : rowSumsClose A <;>
      cases hT : triuClose A <;> simp
  · cases hS : shapeOk n A <;> cases hN : rowSumsClose A <;>
      cases hT : triuClose A <;> simp
  · cases hS : shapeOk n A <;> cases hN : rowSumsClose A <;>
      cases hT : triuClose A <;> cases hL : linearPatternClose A <;> simp_all
  · cases hS : shapeOk n A <;> cases hN : rowSumsClose A <;>
      cases hT : triuClose A <;> cases hL : linearPatternClose A <;> simp_all
  · cases hS : shapeOk n A <;> cases hN : rowSumsClose A <;>
      cases hT : triuClose A <;> cases hL : linearPatternClose A <;> simp_all
  · cases hS : shapeOk n A <;> cases hN : rowSumsClose A <;> simp
  · cases hS : shapeOk n A <;> cases hN : rowSumsClose A <;> simp
  · intro h1 h2
    refine ⟨!allPositive A, ?_⟩
    simp [h1, h2]
  · intro h1 h2 i j hi hj hz
    simp [h1, h2, hwarn i j hi hj hz]

/-- Witness for C8: an ergodic matrix with a zero entry validates with a
warning, and a left-right matrix with mass below the diagonal is a structural
error. -/
theorem c8_validation_errors_witness :
    ergodic_check_transitions 2 [[0, 1], [1/2, 1/2]] = .ok true ∧
    leftright_check_transitions 2 [[1, 0], [1, 0]] = .error .structural := by
  constructor
  · exact (c8_validation_errors 2 [[0, 1], [1/2, 1/2]]).2.2.2.2.2.2.2.2.2
      ⟨rfl, by intro r hr; fin_cases hr <;> rfl⟩
      (by intro r hr; fin_cases hr <;> norm_num [atol, rtol])
      0 0 (by norm_num) (by norm_num) rfl
  · refine ((c8_validation_errors 2 [[1, 0], [1, 0]]).2.2.1).mpr
      ⟨⟨rfl, by intro r hr; fin_cases hr <;> rfl⟩,
       by intro r hr; fin_cases hr <;> norm_num [atol, rtol], ?_⟩
    intro h
    have h10 := h 1 0 (by norm_num) (by norm_num) (by norm_num)
    norm_num [entry, atol] at h10

end Topologies

/-- One split pass of np.array_split: cut successive prefixes of the given
sizes. -/
def splitSizes {α : Type} : List ℕ → List α → List (List α)
  | [], _ => []
  | s :: ss, l => l.take s :: splitSizes ss (l.drop s)

/-- np.array_split(l, n): n contiguous chunks in order, the first
len mod n of size len/n + 1 and the rest of size len/n. -/
def array_split {α : Type} (l : List α) (n : ℕ) : List (List α) :=
  splitSizes (List.replicate (l.length % n) (l.length / n + 1) ++
    List.replicate (n - l.length % n) (l.length / n)) l

theorem flatten_splitSizes {α : Type} (ss : List ℕ) (l : List α) :
    (splitSizes ss l).flatten = l.take ss.sum := by
  induction ss generalizing l with
  | nil => simp [splitSizes]
  | cons s ss ih =>
    rw [splitSizes, List.flatten_cons, ih, List.sum_cons, List.take_add]

theorem sum_split_sizes (len n : ℕ) (hn : 1 ≤ n) :
    (List.replicate (len % n) (len / n + 1) ++
      List.replicate (n - len % n) (len / n)).sum = len := by
  have h1 : len % n < n := Nat.mod_lt _ (by omega)
  have hle : (len % n) * (len / n) ≤ n * (len / n) :=
    Nat.mul_le_mul_right _ h1.le
  rw [List.sum_append, List.sum_replicate, List.sum_replicate, smul_eq_mul,
    smul_eq_mul]
  calc (len % n) * (len / n + 1) + (n - len % n) * (len / n)
      = (len % n) * (len / n) + (len % n) +
          (n * (len / n) - (len % n) * (len / n)) := by
        rw [Nat.mul_succ, Nat.sub_mul]
    _ = (len % n) + ((len % n) * (len / n) +
          (n * (len / n) - (len % n) * (len / n))) := by
        rw [Nat.add_comm ((len % n) * (len / n)) (len % n), Nat.add_assoc]
    _ = (len % n) + n * (len / n) := by rw [Nat.add_sub_cancel' hle]
    _ = len := by rw [Nat.add_comm]; exact Nat.div_add_mod len n

theorem flatten_array_split {α : Type} (l : List α) (n : ℕ) (hn : 1 ≤ n) :
    (array_split l n).flatten = l := by
  rw [array_split, flatten_splitSizes, sum_split_sizes _ _ hn, List.take_length]

theorem flatten_map_map {α β : Type} (L : List (List α)) (f : α → β) :
    (L.map (fun c => c.map f)).flatten = L.flatten.map f := by
  induction L with
  | nil => simp
  | cons c L ih =>
    rw [List.map_cons, List.flatten_cons, List.flatten_cons, List.map_append, ih]

namespace HMM

/-- One fitted GMMHMM as the ensemble classifier sees it: its class label,
the recorded number of training sequences (`n_seqs_`), and the delegated
log-likelihood `model.forward` treated as a black box.  Labels are embedded
as naturals (an orderable, hashable label alphabet). -/
structure GMMHMM (S : Type) where
  label : ℕ
  n_seqs : ℕ
  forward : S → ℚ

instance {S : Type} : Inhabited (GMMHMM S) := ⟨⟨0, 0, fun _ => 0⟩⟩

/-- Insertion step of np.unique: insert into a sorted duplicate-free list. -/
def insertUnique (a : ℕ) : List ℕ → List ℕ
  | [] => [a]
  | b :: t =>
      if a < b then a :: b :: t
      else if a = b then b :: t
      else b :: insertUnique a t

/-- sklearn LabelEncoder.fit: classes_ = np.unique(labels), the sorted
distinct labels. -/
def np_unique (l : List ℕ) : List ℕ := l.foldr insertUnique []

/-- The prior argument of `HMMClassifier.predict`. -/
inductive Prior where
  | frequency
  | uniform
  | custom (v : List ℚ)

/-- Lookup in a python dict built by comprehension: the last binding for a
key wins; a missing key defaults to 0 (never reached by the classifier). -/
def dict_get (l : List (ℕ × ℚ)) (k : ℕ) : ℚ :=
  ((l.reverse.find? (fun p => p.1 == k)).map Prod.snd).getD 0

/-- `encoder_.classes_` of the fitted classifier. -/
def classes {S : Type} (models : List (GMMHMM S)) : List ℕ :=
  np_unique (models.map (·.label))

/-- `encoder_.transform` of one label: its index among the sorted classes. -/
def transform {S : Type} (models : List (GMMHMM S)) (lab : ℕ) : ℕ :=
  (classes models).indexOf lab

/-- `encoder_.inverse_transform` of one index. -/
def inverse_transform {S : Type} (models : List (GMMHMM S)) (i : ℕ) : ℕ :=
  (classes models).getD i 0

/-- `HMMClassifier._get_priors`: the label-to-prior dict for each prior
choice (frequency, uniform, or an explicit vector indexed through the label
encoder). -/
def get_priors {S : Type} (models : List (GMMHMM S)) (pr : Prior) :
    List (ℕ × ℚ) :=
  match pr with
  | .frequency =>
      models.map (fun m =>
        (m.label, (m.n_seqs : ℚ) / (((models.map (·.n_seqs)).sum : ℕ) : ℚ)))
  | .uniform => models.map (fun m => (m.label, 1 / (models.length : ℚ)))
  | .custom v =>
      models.map (fun m => (m.label, v.getD (transform models m.label) 0))

/-- `HMMClassifier._predict`: the unnormalized log-posterior vector, one
entry per model in fit order: forward(x) + log(prior[label]).  The log
function is the delegated np.log, passed in as a parameter. -/
def scoreVector {S : Type} (lg : ℚ → ℚ) (models : List (GMMHMM S)) (pr : Prior)
    (x : S) : List ℚ :=
  models.map (fun m => m.forward x + lg (dict_get (get_priors models pr) m.label))

/-- np.argmax: index of the first occurrence of the maximum. -/
def np_argmax : List ℚ → ℕ
  | [] => 0
  | a :: t => if t.all (fun b => decide (b ≤ a)) then 0 else 1 + np_argmax t

/-- `HMMClassifier.predict` on a single observation sequence with
original_labels=true: argmax of the score vector, decoded through the label
encoder. -/
def predict_single {S : Type} (lg : ℚ → ℚ) (models : List (GMMHMM S))
    (pr : Prior) (x : S) : ℕ :=
  inverse_transform models (np_argmax (scoreVector lg models pr x))

/-- Maximum of a list (python max / np max over a nonempty list). -/
def list_max : List ℚ → ℚ
  | [] => 0
  | a :: t => t.foldl max a

/-- Claim-side definition: the labels whose unnormalized log-posterior ties
for the maximum (the classes the MAP rule should choose among). -/
def top_labels {S : Type} (lg : ℚ → ℚ) (models : List (GMMHMM S)) (pr : Prior)
    (x : S) : List ℕ :=
  ((models.map (·.label)).zip (scoreVector lg models pr x)).filterMap
    (fun p => if p.2 = list_max (scoreVector lg models pr x) then some p.1 else none)

theorem np_argmax_lt_length (l : List ℚ) (h : l ≠ []) : np_argmax l < l.length := by
  induction l with
  | nil => exact absurd rfl h
  | cons a t ih =>
    rw [np_argmax]
    by_cases hall : t.all (fun b => decide (b ≤ a)) = true
    · simp [hall]
    · rw [if_neg hall]
      have ht : t ≠ [] := by
        intro he
        rw [he] at hall
        exact hall rfl
      have := ih ht
      simp only [List.length_cons]
      omega

theorem exists_gt_of_not_all (a : ℚ) (t : List ℚ)
    (hall : ¬ t.all (fun b => decide (b ≤ a)) = true) :
    ∃ j, ∃ _ : j < t.length, a < t.getD j 0 := by
  rw [List.all_eq_true] at hall
  push_neg at hall
  obtain ⟨b, hb, hba⟩ := hall
  have hba' : a < b := not_le.mp (by simpa using hba)
  obtain ⟨j, hj, hbj⟩ := List.mem_iff_getElem.mp hb
  exact ⟨j, hj, by rw [List.getD_eq_getElem _ _ hj, hbj]; exact hba'⟩

theorem np_argmax_le (l : List ℚ) (i : ℕ) (hi : i < l.length) :
    l.getD i 0 ≤ l.getD (np_argmax l) 0 := by
  induction l generalizing i with
  | nil => simp at hi
  | cons a t ih =>
    rw [np_argmax]
    by_cases hall : t.all (fun b => decide (b ≤ a)) = true
    · rw [if_pos hall]
      cases i with
      | zero => exact le_refl _
      | succ j =>
        rw [List.getD_cons_succ, List.getD_cons_zero]
        rw [List.all_eq_true] at hall
        have hj : j < t.length := by simpa using hi
        have := hall _ (Topologies.getD_mem_of_lt t 0 hj)
        simpa using this
    · rw [if_neg hall]
      have hk : np_argmax t < t.length :=
        np_argmax_lt_length t (by intro he; rw [he] at hall; exact hall rfl)
      have hsucc : (1 : ℕ) + np_argmax t = np_argmax t + 1 := Nat.add_comm ..
      rw [hsucc, List.getD_cons_succ]
      cases i with
      | zero =>
        rw [List.getD_cons_zero]
        obtain ⟨j, hj, haj⟩ := exists_gt_of_not_all a t hall
        exact le_trans haj.le (ih j hj)
      | succ j =>
        rw [List.getD_cons_succ]
        exact ih j (by simpa using hi)

theorem np_argmax_first (l : List ℚ) (i : ℕ) (hi : i < np_argmax l) :
    l.getD i 0 < l.getD (np_argmax l) 0 := by
  induction l generalizing i with
  | nil => simp [np_argmax] at hi
  | cons a t ih =>
    rw [np_argmax] at hi ⊢
    by_cases hall : t.all (fun b => decide (b ≤ a)) = true
    · rw [if_pos hall] at hi
      omega
    · rw [if_neg hall] at hi ⊢
      have hsucc : (1 : ℕ) + np_argmax t = np_argmax t + 1 := Nat.add_comm ..
      rw [hsucc, List.getD_cons_succ]
      cases i with
      | zero =>
        rw [List.getD_cons_zero]
        obtain ⟨j, hj, haj⟩ := exists_gt_of_not_all a t hall
        exact lt_of_lt_of_le haj (np_argmax_le t j hj)
      | succ j =>
        rw [List.getD_cons_succ]
        exact ih j (by omega)

theorem foldl_max_le_init (t : List ℚ) (b : ℚ) : b ≤ t.foldl max b := by
  induction t generalizing b with
  | nil => simp
  | cons c t ih => exact le_trans (le_max_left b c) (ih (max b c))

theorem le_foldl_max_of_mem (t : List ℚ) (b : ℚ) (x : ℚ) (hx : x ∈ t) :
    x ≤ t.foldl max b := by
  induction t generalizing b with
  | nil => cases hx
  | cons c t ih =>
    rcases List.mem_cons.mp hx with rfl | hx'
    · exact le_trans (le_max_right b x) (foldl_max_le_init t (max b x))
    · exact ih (max b c) hx'

theorem foldl_max_mem (t : List ℚ) (b : ℚ) : t.foldl max b ∈ b :: t := by
  induction t generalizing b with
  | nil => simp
  | cons c t ih =>
    simp only [List.foldl_cons]
    rcases List.mem_cons.mp (ih (max b c)) with h | h
    · rw [h]
      rcases max_choice b c with hm | hm <;> rw [hm] <;> simp
    · exact List.mem_cons_of_mem _ (List.mem_cons_of_mem _ h)

theorem le_list_max_of_mem (l : List ℚ) (x : ℚ) (hx : x ∈ l) : x ≤ list_max l := by
  cases l with
  | nil => cases hx
  | cons a t =>
    rw [list_max]
    rcases List.mem_cons.mp hx with rfl | hx'
    · exact foldl_max_le_init t x
    · exact le_foldl_max_of_mem t a x hx'

theorem list_max_mem (l : List ℚ) (h : l ≠ []) : list_max l ∈ l := by
  cases l with
  | nil => exact absurd rfl h
  | cons a t => exact foldl_max_mem t a

theorem getD_np_argmax_eq_list_max (l : List ℚ) (h : l ≠ []) :
    l.getD (np_argmax l) 0 = list_max l := by
  refine le_antisymm ?_ ?_
  · exact le_list_max_of_mem l _ (Topologies.getD_mem_of_lt l 0 (np_argmax_lt_length l h))
  · obtain ⟨j, hj, hje⟩ := List.mem_iff_getElem.mp (list_max_mem l h)
    rw [← List.getD_eq_getElem l 0 hj] at hje
    rw [← hje]
    exact np_argmax_le l j hj

theorem np_unique_of_chain (l : List ℕ) (h : List.Chain' (· < ·) l) :
    np_unique l = l := by
  induction l with
  | nil => rfl
  | cons a t ih =>
    have ht : np_unique t = t := ih h.tail
    show insertUnique a (np_unique t) = a :: t
    rw [ht]
    cases t with
    | nil => rfl
    | cons b t' =>
      have hab : a < b := (List.chain'_cons.mp h).1
      rw [insertUnique, if_pos hab]

theorem scoreVector_ne_nil {S : Type} (lg : ℚ → ℚ) (models : List (GMMHMM S))
    (pr : Prior) (x : S) (hne : models ≠ []) : scoreVector lg models pr x ≠ [] := by
  simpa [scoreVector] using hne

theorem length_scoreVector {S : Type} (lg : ℚ → ℚ) (models : List (GMMHMM S))
    (pr : Prior) (x : S) : (scoreVector lg models pr x).length = models.length :=
  List.length_map ..

theorem mem_top_labels_iff {S : Type} (lg : ℚ → ℚ) (models : List (GMMHMM S))
    (pr : Prior) (x : S) (c : ℕ) :
    c ∈ top_labels lg models pr x ↔
      ∃ i, ∃ _ : i < models.length,
        (models.map (·.label)).getD i 0 = c ∧
        (scoreVector lg models pr x).getD i 0 =
          list_max (scoreVector lg models pr x) := by
  unfold top_labels
  rw [List.mem_filterMap]
  constructor
  · rintro ⟨p, hp, hif⟩
    by_cases hm : p.2 = list_max (scoreVector lg models pr x)
    · rw [if_pos hm, Option.some.injEq] at hif
      obtain ⟨i, hi, hpi⟩ := List.mem_iff_getElem.mp hp
      have hi' : i < models.length := by
        rw [List.length_zip, List.length_map, length_scoreVector] at hi
        omega
      rw [List.getElem_zip] at hpi
      refine ⟨i, hi', ?_, ?_⟩
      · rw [List.getD_eq_getElem _ _ (by simpa using hi'), ← hif, ← hpi]
      · rw [List.getD_eq_getElem _ _
          (by rw [length_scoreVector]; exact hi'), ← hm, ← hpi]
    · rw [if_neg hm] at hif
      exact absurd hif (by simp)
  · rintro ⟨i, hi, hc, hmax⟩
    refine ⟨((models.map (·.label)).getD i 0,
      (scoreVector lg models pr x).getD i 0), ?_, ?_⟩
    · rw [List.mem_iff_getElem]
      refine ⟨i, ?_, ?_⟩
      · rw [List.length_zip, List.length_map, length_scoreVector]
        omega
      · rw [List.getElem_zip, List.getD_eq_getElem _ _ (by simpa using hi),
          List.getD_eq_getElem _ _ (by rw [length_scoreVector]; exact hi)]
    · rw [if_pos hmax, hc]

theorem predict_top_of_sorted {S : Type} (lg : ℚ → ℚ)
    (models : List (GMMHMM S)) (pr : Prior) (x : S) (hne : models ≠ [])
    (hsort : List.Chain' (· < ·) (models.map (·.label))) :
    predict_single lg models pr x ∈ top_labels lg models pr x ∧
    ∀ c ∈ top_labels lg models pr x, predict_single lg models pr x ≤ c := by
  have hcl : classes models = models.map (·.label) :=
    np_unique_of_chain _ hsort
  have hsne := scoreVector_ne_nil lg models pr x hne
  have hk : np_argmax (scoreVector lg models pr x) <
      (scoreVector lg models pr x).length :=
    np_argmax_lt_length _ hsne
  have hk' : np_argmax (scoreVector lg models pr x) < models.length := by
    rw [← length_scoreVector lg models pr x]; exact hk
  have hpred : predict_single lg models pr x =
      (models.map (·.label)).getD (np_argmax (scoreVector lg models pr x)) 0 := by
    rw [predict_single, inverse_transform, hcl]
  constructor
  · rw [mem_top_labels_iff]
    exact ⟨np_argmax (scoreVector lg models pr x), hk', hpred.symm,
      getD_np_argmax_eq_list_max _ hsne⟩
  · intro c hc
    rw [mem_top_labels_iff] at hc
    obtain ⟨i, hi, hci, hmax⟩ := hc
    have hki : np_argmax (scoreVector lg models pr x) ≤ i := by
      by_contra hlt
      push_neg at hlt
      have := np_argmax_first (scoreVector lg models pr x) i hlt
      rw [hmax, getD_np_argmax_eq_list_max _ hsne] at this
      exact lt_irrefl _ this
    rw [hpred, ← hci]
    rcases Nat.eq_or_lt_of_le hki with heq | hlt
    · rw [heq]
    · have hpw := (List.chain'_iff_pairwise.mp hsort)
      rw [List.pairwise_iff_getElem] at hpw
      have := hpw _ i (by simpa using hk') (by simpa using hi) hlt
      rw [List.getD_eq_getElem _ _ (by simpa using hk'),
        List.getD_eq_getElem _ _ (by simpa using hi)]
      exact this.le

/-- C2 (amended): when the ensemble's models are fitted in sorted label
order, predict on any observation sequence returns a label whose
unnormalized log-posterior ties for the maximum, and among all tied labels
it is the one with the lowest index in sorted label order.  (As stated for
an arbitrary fit order the claim fails, see the counterexample.) -/
theorem c2_tiebreak_lowest_sorted {S : Type} (lg : ℚ → ℚ)
    (models : List (GMMHMM S)) (pr : Prior) (x : S) (hne : models ≠ [])
    (hsort : List.Chain' (· < ·) (models.map (·.label))) :
    predict_single lg models pr x ∈ top_labels lg models pr x ∧
    ∀ c ∈ top_labels lg models pr x, predict_single lg models pr x ≤ c :=
  predict_top_of_sorted lg models pr x hne hsort

theorem np_argmax_cons_pos (a : ℚ) (t : List ℚ) (h : ∀ b ∈ t, b ≤ a) :
    np_argmax (a :: t) = 0 := by
  rw [np_argmax, if_pos]
  rw [List.all_eq_true]
  intro b hb
  simpa using h b hb

theorem list_max_pair (a b : ℚ) (h : b ≤ a) : list_max [a, b] = a := by
  rw [list_max]
  simp only [List.foldl_cons, List.foldl_nil]
  rw [max_eq_left h]

theorem list_max_triple (a b c : ℚ) (hb : b ≤ a) (hc : c ≤ a) :
    list_max [a, b, c] = a := by
  rw [list_max]
  simp only [List.foldl_cons, List.foldl_nil]
  rw [max_eq_left hb, max_eq_left hc]

/-- The delegated np.log, instantiated trivially for counterexamples whose
priors are uniform (so the log-prior shift is the same for every class and
cancels out of every comparison). -/
def lgZero : ℚ → ℚ := fun _ => 0

/-- Models fitted in the order [2, 1, 0]: classes 2 and 1 tie with
log-likelihood 5, class 0 scores 0. -/
def cexModelsTie : List (GMMHMM Unit) :=
  [⟨2, 1, fun _ => 5⟩, ⟨1, 1, fun _ => 5⟩, ⟨0, 1, fun _ => 0⟩]

theorem cexModelsTie_scores :
    scoreVector lgZero cexModelsTie .uniform () = [5, 5, 0] := by
  simp [scoreVector, cexModelsTie, lgZero]

/-- Counterexample to C2 as stated: with models fitted in the unsorted order
[2, 1, 0] and classes 2 and 1 tied for the maximal unnormalized posterior,
predict returns label 0 - not the lower tied class 1, and not even a member
of the tied set (the argmax index over fit order is decoded through the
sorted-label encoder). -/
theorem c2_counterexample :
    predict_single lgZero cexModelsTie .uniform () = 0 ∧
    top_labels lgZero cexModelsTie .uniform () = [2, 1] ∧
    predict_single lgZero cexModelsTie .uniform () ∉
      top_labels lgZero cexModelsTie .uniform () := by
  have hargmax : np_argmax (scoreVector lgZero cexModelsTie .uniform ()) = 0 := by
    rw [cexModelsTie_scores]
    apply np_argmax_cons_pos
    intro b hb
    fin_cases hb <;> norm_num
  have hmax : list_max (scoreVector lgZero cexModelsTie .uniform ()) = 5 := by
    rw [cexModelsTie_scores]
    exact list_max_triple 5 5 0 le_rfl (by norm_num)
  have hpred : predict_single lgZero cexModelsTie .uniform () = 0 := by
    rw [predict_single, hargmax, inverse_transform]
    have hcl : classes cexModelsTie = [0, 1, 2] := by
      show np_unique (cexModelsTie.map (·.label)) = [0, 1, 2]
      simp only [cexModelsTie, List.map_cons, List.map_nil]
      decide
    rw [hcl]
    rfl
  have htop : top_labels lgZero cexModelsTie .uniform () = [2, 1] := by
    rw [top_labels, hmax, cexModelsTie_scores]
    simp only [cexModelsTie, List.map_cons, List.map_nil, List.zip_cons_cons,
      List.zip_nil_right, List.filterMap_cons, List.filterMap_nil]
    norm_num
  exact ⟨hpred, htop, by rw [hpred, htop]; decide⟩

/-- Witness models for the amended C2: fitted in sorted label order with a
tie between classes 0 and 1. -/
def witModelsSorted : List (GMMHMM Unit) :=
  [⟨0, 1, fun _ => 5⟩, ⟨1, 1, fun _ => 5⟩, ⟨2, 1, fun _ => 0⟩]

/-- Witness for the amended C2 at a concrete sorted ensemble with a tie. -/
theorem c2_tiebreak_lowest_sorted_witness :
    predict_single lgZero witModelsSorted .uniform () ∈
      top_labels lgZero witModelsSorted .uniform () ∧
    ∀ c ∈ top_labels lgZero witModelsSorted .uniform (),
      predict_single lgZero witModelsSorted .uniform () ≤ c :=
  c2_tiebreak_lowest_sorted lgZero witModelsSorted .uniform ()
    (by simp [witModelsSorted])
    (by simp only [witModelsSorted, List.map_cons, List.map_nil]
        simp [List.chain'_cons])

theorem eq_of_mem_of_nodup_keys (l : List (ℕ × ℚ))
    (hnd : (l.map Prod.fst).Nodup) (p q : ℕ × ℚ) (hp : p ∈ l) (hq : q ∈ l)
    (hk : p.1 = q.1) : p = q := by
  induction l with
  | nil => cases hp
  | cons a t ih =>
    rw [List.map_cons, List.nodup_cons] at hnd
    rcases List.mem_cons.mp hp with rfl | hp'
    · rcases List.mem_cons.mp hq with rfl | hq'
      · rfl
      · have hq1 : q.1 ∈ t.map Prod.fst := List.mem_map_of_mem _ hq'
        rw [← hk] at hq1
        exact absurd hq1 hnd.1
    · rcases List.mem_cons.mp hq with rfl | hq'
      · have hp1 : p.1 ∈ t.map Prod.fst := List.mem_map_of_mem _ hp'
        rw [hk] at hp1
        exact absurd hp1 hnd.1
      · exact ih hnd.2 hp' hq'

theorem dict_get_eq_of_nodup (l : List (ℕ × ℚ)) (hnd : (l.map Prod.fst).Nodup)
    (k : ℕ) (v : ℚ) (hmem : (k, v) ∈ l) : dict_get l k = v := by
  rw [dict_get]
  cases hf : l.reverse.find? (fun p => p.1 == k) with
  | none =>
    exfalso
    have := List.find?_eq_none.mp hf (k, v) (by simpa using hmem)
    simp at this
  | some p =>
    have hp1 : p.1 = k := by simpa using List.find?_some hf
    have hpmem : p ∈ l := by
      have := List.mem_of_find?_eq_some hf
      simpa using this
    have hpq := eq_of_mem_of_nodup_keys l hnd p (k, v) hpmem hmem (by rw [hp1])
    rw [hpq]
    rfl

theorem nodup_labels_of_chain {S : Type} (models : List (GMMHMM S))
    (hsort : List.Chain' (· < ·) (models.map (·.label))) :
    (models.map (·.label)).Nodup :=
  (List.chain'_iff_pairwise.mp hsort).imp ne_of_lt

theorem transform_sorted {S : Type} (models : List (GMMHMM S))
    (hsort : List.Chain' (· < ·) (models.map (·.label))) (i : ℕ)
    (hi : i < models.length) :
    transform models (models.getD i default).label = i := by
  have hcl : classes models = models.map (·.label) := np_unique_of_chain _ hsort
  have hnd := nodup_labels_of_chain models hsort
  have hi' : i < (models.map (·.label)).length := by simpa using hi
  rw [transform, hcl]
  have h1 : (models.getD i default).label = (models.map (·.label)).get ⟨i, hi'⟩ := by
    rw [List.get_eq_getElem, List.getElem_map, List.getD_eq_getElem _ _ hi]
  rw [h1, List.get_eq_getElem, List.indexOf_getElem hnd i hi']

/-- The per-model prior value stored by `_get_priors` into the dict, for
each prior choice. -/
def prior_fn {S : Type} (models : List (GMMHMM S)) (pr : Prior)
    (m : GMMHMM S) : ℚ :=
  match pr with
  | .frequency => (m.n_seqs : ℚ) / (((models.map (·.n_seqs)).sum : ℕ) : ℚ)
  | .uniform => 1 / (models.length : ℚ)
  | .custom v => v.getD (transform models m.label) 0

theorem get_priors_eq_map {S : Type} (models : List (GMMHMM S)) (pr : Prior) :
    get_priors models pr = models.map (fun m => (m.label, prior_fn models pr m)) := by
  cases pr <;> rfl

/-- Claim-side definition, following the spec: the class prior used for the
i-th fitted model equals its training-sequence share for 'frequency', 1/M
for 'uniform', and - for an explicitly given vector ordered by sorted
labels - the vector entry at the model's label's encoder index
(transform), whatever position the model occupies in fit order. -/
def prior_value {S : Type} (models : List (GMMHMM S)) (pr : Prior) (i : ℕ) : ℚ :=
  match pr with
  | .frequency => ((models.getD i default).n_seqs : ℚ) /
      (((models.map (·.n_seqs)).sum : ℕ) : ℚ)
  | .uniform => 1 / (models.length : ℚ)
  | .custom v => v.getD (transform models (models.getD i default).label) 0

theorem dict_get_priors_nodup {S : Type} (models : List (GMMHMM S)) (pr : Prior)
    (hnd : (models.map (·.label)).Nodup) (i : ℕ)
    (hi : i < models.length) :
    dict_get (get_priors models pr) (models.getD i default).label =
      prior_value models pr i := by
  have hkeys : ((models.map (fun m => (m.label, prior_fn models pr m))).map
      Prod.fst).Nodup := by
    rw [List.map_map]
    exact hnd
  have hmem : ((models.getD i default).label,
      prior_fn models pr (models.getD i default)) ∈
      models.map (fun m => (m.label, prior_fn models pr m)) :=
    List.mem_map_of_mem _ (Topologies.getD_mem_of_lt models default hi)
  rw [get_priors_eq_map, dict_get_eq_of_nodup _ hkeys _ _ hmem]
  cases pr <;> rfl

theorem scoreVector_getD {S : Type} (lg : ℚ → ℚ) (models : List (GMMHMM S))
    (pr : Prior) (x : S) (i : ℕ) (hi : i < models.length) :
    (scoreVector lg models pr x).getD i 0 =
      (models.getD i default).forward x +
        lg (dict_get (get_priors models pr) (models.getD i default).label) := by
  rw [scoreVector, List.getD_eq_getElem _ _ (by simpa using hi),
    List.getElem_map, List.getD_eq_getElem _ _ hi]

/-- C3 (amended): for every prior choice and every fit order of an
ensemble with distinct labels (the fitted-ensemble invariant), the i-th
entry of the score vector equals the i-th model's delegated log-likelihood
of the sequence plus the log of its class prior - the frequency share, 1/M,
or the explicit vector entry aligned through the label encoder; and when
the models are additionally fitted in sorted label order, the predicted
label is a class attaining the maximal score.  (For an arbitrary fit order
the maximizing part fails, see the counterexample.) -/
theorem c3_map_scores {S : Type} (lg : ℚ → ℚ) (models : List (GMMHMM S))
    (pr : Prior) (x : S) (hnd : (models.map (·.label)).Nodup) :
    (∀ i, ∀ _ : i < models.length,
      (scoreVector lg models pr x).getD i 0 =
        (models.getD i default).forward x + lg (prior_value models pr i)) ∧
    (models ≠ [] → List.Chain' (· < ·) (models.map (·.label)) →
      predict_single lg models pr x ∈ top_labels lg models pr x) := by
  constructor
  · intro i hi
    rw [scoreVector_getD lg models pr x i hi,
      dict_get_priors_nodup models pr hnd i hi]
  · intro hne hsort
    exact (predict_top_of_sorted lg models pr x hne hsort).1

/-- Models fitted in the unsorted order [1, 0]: the class-1 model has the
strictly larger log-likelihood. -/
def cexModelsSwap : List (GMMHMM Unit) :=
  [⟨1, 1, fun _ => 5⟩, ⟨0, 1, fun _ => 0⟩]

/-- Witness for the amended C3: the score formula instantiated on the
unsorted ensemble [1, 0] (no sorted-order hypothesis involved), and the
argmax membership on the sorted ensemble. -/
theorem c3_map_scores_witness :
    ((scoreVector lgZero cexModelsSwap .uniform ()).getD 0 0 =
      (cexModelsSwap.getD 0 default).forward () +
        lgZero (prior_value cexModelsSwap .uniform 0)) ∧
    predict_single lgZero witModelsSorted .uniform () ∈
      top_labels lgZero witModelsSorted .uniform () :=
  ⟨(c3_map_scores lgZero cexModelsSwap .uniform ()
      (by simp only [cexModelsSwap, List.map_cons, List.map_nil]
          decide)).1 0 (by decide),
   (c3_map_scores lgZero witModelsSorted .uniform ()
      (by simp only [witModelsSorted, List.map_cons, List.map_nil]
          decide)).2 (by simp [witModelsSorted])
      (by simp only [witModelsSorted, List.map_cons, List.map_nil]
          simp [List.chain'_cons])⟩

theorem cexModelsSwap_scores :
    scoreVector lgZero cexModelsSwap .uniform () = [5, 0] := by
  simp [scoreVector, cexModelsSwap, lgZero]

/-- Counterexample to C3 as stated: with models fitted in the unsorted
order [1, 0], the class with the strictly maximal unnormalized posterior is
1, yet predict returns 0 (the argmax index over fit order is decoded
through the sorted-label encoder). -/
theorem c3_counterexample :
    predict_single lgZero cexModelsSwap .uniform () = 0 ∧
    top_labels lgZero cexModelsSwap .uniform () = [1] ∧
    predict_single lgZero cexModelsSwap .uniform () ∉
      top_labels lgZero cexModelsSwap .uniform () := by
  have hargmax : np_argmax (scoreVector lgZero cexModelsSwap .uniform ()) = 0 := by
    rw [cexModelsSwap_scores]
    apply np_argmax_cons_pos
    intro b hb
    fin_cases hb
    norm_num
  have hmax : list_max (scoreVector lgZero cexModelsSwap .uniform ()) = 5 := by
    rw [cexModelsSwap_scores]
    exact list_max_pair 5 0 (by norm_num)
  have hpred : predict_single lgZero cexModelsSwap .uniform () = 0 := by
    rw [predict_single, hargmax, inverse_transform]
    have hcl : classes cexModelsSwap = [0, 1] := by
      show np_unique (cexModelsSwap.map (·.label)) = [0, 1]
      simp only [cexModelsSwap, List.map_cons, List.map_nil]
      decide
    rw [hcl]
    rfl
  have htop : top_labels lgZero cexModelsSwap .uniform () = [1] := by
    rw [top_labels, hmax, cexModelsSwap_scores]
    simp only [cexModelsSwap, List.map_cons, List.map_nil, List.zip_cons_cons,
      List.zip_nil_right, List.filterMap_cons, List.filterMap_nil]
    norm_num
  exact ⟨hpred, htop, by rw [hpred, htop]; decide⟩


/-- `HMMClassifier._chunk_predict`: the score vectors of one chunk. -/
def chunk_predict {S : Type} (lg : ℚ → ℚ) (models : List (GMMHMM S))
    (pr : Prior) (chunk : List S) : List (List ℚ) :=
  chunk.map (scoreVector lg models pr)

/-- The score matrix computed by `HMMClassifier.predict` on a batch: the
worker count is clamped to the batch size; one worker processes the whole
batch as a single chunk; more workers process the np.array_split chunks
independently, and the score blocks are stacked in submission order. -/
def batch_scores {S : Type} (lg : ℚ → ℚ) (models : List (GMMHMM S))
    (pr : Prior) (X : List S) (n_jobs : ℕ) : List (List ℚ) :=
  if min n_jobs X.length = 1 then chunk_predict lg models pr X
  else ((array_split X (min n_jobs X.length)).map
    (chunk_predict lg models pr)).flatten

/-- `HMMClassifier.predict` on a batch with original_labels=true and
return_scores=true: decoded per-row argmax labels plus the score matrix. -/
def predict_batch {S : Type} (lg : ℚ → ℚ) (models : List (GMMHMM S))
    (pr : Prior) (X : List S) (n_jobs : ℕ) : List ℕ × List (List ℚ) :=
  ((batch_scores lg models pr X n_jobs).map
      (fun s => inverse_transform models (np_argmax s)),
    batch_scores lg models pr X n_jobs)

theorem batch_scores_eq_serial {S : Type} (lg : ℚ → ℚ)
    (models : List (GMMHMM S)) (pr : Prior) (X : List S) (n : ℕ)
    (hn : 1 ≤ n) (hX : X ≠ []) :
    batch_scores lg models pr X n = chunk_predict lg models pr X := by
  rw [batch_scores]
  by_cases h1 : min n X.length = 1
  · rw [if_pos h1]
  · rw [if_neg h1]
    have hlen : 1 ≤ X.length := List.length_pos.mpr hX
    have hm : 1 ≤ min n X.length := by omega
    rw [show (array_split X (min n X.length)).map (chunk_predict lg models pr) =
      (array_split X (min n X.length)).map
        (fun c => c.map (scoreVector lg models pr)) from rfl]
    rw [flatten_map_map, flatten_array_split _ _ hm]
    rfl

end HMM

namespace DTWKNN

/-- `_Validator.restricted_integer`: the integer when the predicate holds,
a validation error otherwise. -/
def restricted_integer (x : ℤ) (pred : ℤ → Bool) : Except String ℤ :=
  if pred x then .ok x else .error "restricted integer"

/-- `DTWKNN.__init__`: k and radius must each be greater than zero; no
reference data is involved at construction time. -/
def dtwknn_init (k radius : ℤ) : Except String (ℤ × ℤ) :=
  match restricted_integer k (fun v => decide (0 < v)) with
  | .error e => .error e
  | .ok kv =>
    match restricted_integer radius (fun v => decide (0 < v)) with
    | .error e => .error e
    | .ok rv => .ok (kv, rv)

/-- The fitted DTWKNN state: hyper-parameters plus the reference sequences
and labels stored verbatim by `fit` (which never compares k with the
reference count). Labels are embedded as naturals. -/
structure KNNState (S : Type) where
  k : ℕ
  radius : ℕ
  X : List S
  y : List ℕ

/-- `DTWKNN.fit`: stores the validated sequences and labels unchanged. -/
def dtwknn_fit {S : Type} (p : ℤ × ℤ) (X : List S) (y : List ℕ) : KNNState S :=
  ⟨p.1.toNat, p.2.toNat, X, y⟩

/-- The keys of collections.Counter in first-occurrence order. -/
def keysOf : List ℕ → List ℕ
  | [] => []
  | a :: t => a :: keysOf (t.filter (fun b => !(b == a)))
termination_by l => l.length
decreasing_by
  simp only [List.length_cons]
  exact Nat.lt_succ_of_le (List.length_filter_le _ _)

/-- max(counter.values()): the maximal tally among the neighbor labels. -/
def max_count (l : List ℕ) : ℕ :=
  ((keysOf l).map (fun a => l.count a)).foldr max 0

/-- The list returned by `find_modes`: the labels whose tally ties for the
maximum, in first-occurrence order. -/
def modesOf (l : List ℕ) : List ℕ :=
  (keysOf l).filter (fun a => l.count a == max_count l)

/-- `DTWKNN.predict` for one query: distances to every stored reference via
the delegated pairwise measure `d`; np.argpartition (delegated, `ap` gives
its output permutation) with partition index k, of which the first k entries
are the neighbor indices; python indexing of the stored labels (out of range
would be an IndexError); the modal labels; and `random.choice` (delegated,
`ch`).  numpy raises when the partition index is out of bounds (k >= N). -/
def predict_one {S : Type} (d : S → S → ℚ) (ap : List ℚ → ℕ → List ℕ)
    (ch : List ℕ → ℕ) (st : KNNState S) (q : S) : Except String ℕ :=
  let distances := st.X.map (fun x => d q x)
  if st.k < distances.length then
    let idx := (ap distances st.k).take st.k
    if idx.all (fun i => decide (i < st.y.length)) then
      .ok (ch (modesOf (idx.map (fun i => st.y.getD i 0))))
    else .error "IndexError"
  else .error "kth out of bounds"

/-- `DTWKNN.predict` on a batch: a serial loop when n_jobs = 1, otherwise
the np.array_split chunks are classified independently and the per-chunk
label lists are concatenated in submission order (joblib preserves order).
Any per-sequence failure aborts the whole call. -/
def knn_predict_batch {S : Type} (d : S → S → ℚ) (ap : List ℚ → ℕ → List ℕ)
    (ch : List ℕ → ℕ) (st : KNNState S) (X : List S) (n_jobs : ℕ) :
    Except String (List ℕ) :=
  if n_jobs = 1 then X.mapM (predict_one d ap ch st)
  else ((array_split X n_jobs).mapM
    (fun c : List S => c.mapM (predict_one d ap ch st))).map List.flatten

/-- The contract of np.argpartition(dist, kth) relied on by `find_modes`:
the output is a permutation of the index range, and every position at or
before kth holds a value no larger than every position at or after kth. -/
def IsArgpartition (dist : List ℚ) (kth : ℕ) (perm : List ℕ) : Prop :=
  perm.isPerm (List.range dist.length) = true ∧
  ∀ p, p < perm.length → ∀ q, q < perm.length → p ≤ kth → kth ≤ q →
    dist.getD (perm.getD p 0) 0 ≤ dist.getD (perm.getD q 0) 0

theorem mem_keysOf_iff (l : List ℕ) (a : ℕ) : a ∈ keysOf l ↔ a ∈ l := by
  induction l using keysOf.induct with
  | case1 => simp [keysOf]
  | case2 b t ih =>
    rw [keysOf]
    simp only [List.mem_cons, ih, List.mem_filter]
    constructor
    · rintro (rfl | ⟨h1, _⟩)
      · exact Or.inl rfl
      · exact Or.inr h1
    · rintro (rfl | h1)
      · exact Or.inl rfl
      · by_cases hab : a = b
        · exact Or.inl hab
        · exact Or.inr ⟨h1, by simpa using hab⟩

theorem keysOf_nodup (l : List ℕ) : (keysOf l).Nodup := by
  induction l using keysOf.induct with
  | case1 => simp [keysOf]
  | case2 b t ih =>
    rw [keysOf, List.nodup_cons]
    refine ⟨?_, ih⟩
    rw [mem_keysOf_iff]
    simp [List.mem_filter]

theorem le_foldr_max (L : List ℕ) (x : ℕ) (hx : x ∈ L) : x ≤ L.foldr max 0 := by
  induction L with
  | nil => cases hx
  | cons c t ih =>
    rcases List.mem_cons.mp hx with rfl | h
    · exact le_max_left _ _
    · exact le_trans (ih h) (le_max_right _ _)

theorem foldr_max_le (L : List ℕ) (m : ℕ) (h : ∀ x ∈ L, x ≤ m) :
    L.foldr max 0 ≤ m := by
  induction L with
  | nil => simp
  | cons c t ih =>
    simp only [List.foldr_cons]
    exact max_le (h c (List.mem_cons_self c t))
      (ih fun x hx => h x (List.mem_cons_of_mem _ hx))

theorem foldr_max_mem (L : List ℕ) (h : L ≠ []) : L.foldr max 0 ∈ L := by
  induction L with
  | nil => exact absurd rfl h
  | cons c t ih =>
    rw [List.foldr_cons]
    cases t with
    | nil => simp
    | cons e t' =>
      rcases max_choice c ((e :: t').foldr max 0) with h1 | h1
      · rw [h1]
        exact List.mem_cons_self _ _
      · rw [h1]
        exact List.mem_cons_of_mem _ (ih (by simp))

theorem count_le_max_count (l : List ℕ) (b : ℕ) (hb : b ∈ l) :
    l.count b ≤ max_count l :=
  le_foldr_max _ _ (List.mem_map_of_mem _ ((mem_keysOf_iff l b).mpr hb))

theorem mem_modesOf_iff (l : List ℕ) (a : ℕ) :
    a ∈ modesOf l ↔ a ∈ l ∧ ∀ b ∈ l, l.count b ≤ l.count a := by
  rw [modesOf, List.mem_filter, mem_keysOf_iff]
  constructor
  · rintro ⟨ha, hc⟩
    have hc' : l.count a = max_count l := by simpa using hc
    exact ⟨ha, fun b hb => hc' ▸ count_le_max_count l b hb⟩
  · rintro ⟨ha, hb⟩
    refine ⟨ha, ?_⟩
    have h1 : max_count l ≤ l.count a := by
      apply foldr_max_le
      intro x hx
      obtain ⟨b, hbk, rfl⟩ := List.mem_map.mp hx
      exact hb b ((mem_keysOf_iff l b).mp hbk)
    have h2 := count_le_max_count l a ha
    simp [le_antisymm h2 h1]

theorem exists_count_eq_max (l : List ℕ) (h : l ≠ []) :
    ∃ a ∈ l, l.count a = max_count l := by
  have hk : keysOf l ≠ [] := by
    cases l with
    | nil => exact absurd rfl h
    | cons a t => rw [keysOf]; simp
  have hmem : max_count l ∈ (keysOf l).map (fun a => l.count a) := by
    apply foldr_max_mem
    simpa using hk
  obtain ⟨a, hak, hac⟩ := List.mem_map.mp hmem
  exact ⟨a, (mem_keysOf_iff l a).mp hak, hac⟩

theorem modesOf_ne_nil (l : List ℕ) (h : l ≠ []) : modesOf l ≠ [] := by
  obtain ⟨a, ha, hac⟩ := exists_count_eq_max l h
  have : a ∈ modesOf l := by
    rw [mem_modesOf_iff]
    exact ⟨ha, fun b hb => hac ▸ count_le_max_count l b hb⟩
  intro he
  rw [he] at this
  cases this

theorem filter_eq_singleton_of_nodup (L : List ℕ) (hnd : L.Nodup) (a : ℕ)
    (ha : a ∈ L) (p : ℕ → Bool) (hp : ∀ x ∈ L, (p x = true ↔ x = a)) :
    L.filter p = [a] := by
  induction L with
  | nil => cases ha
  | cons c t ih =>
    rw [List.nodup_cons] at hnd
    rcases List.mem_cons.mp ha with rfl | hat
    · rw [List.filter_cons_of_pos ((hp a (List.mem_cons_self a t)).mpr rfl)]
      have hnil : t.filter p = [] := by
        rw [List.filter_eq_nil_iff]
        intro x hx hpx
        have hxc := (hp x (List.mem_cons_of_mem _ hx)).mp hpx
        rw [hxc] at hx
        exact hnd.1 hx
      rw [hnil]
    · have hca : c ≠ a := by
        rintro rfl
        exact hnd.1 hat
      rw [List.filter_cons_of_neg (by simpa [hp c (List.mem_cons_self c t)] using hca)]
      exact ih hnd.2 hat (fun x hx => hp x (List.mem_cons_of_mem _ hx))

theorem modesOf_eq_singleton (l : List ℕ) (a : ℕ) (ha : a ∈ l)
    (hstrict : ∀ b ∈ l, b ≠ a → l.count b < l.count a) : modesOf l = [a] := by
  rw [modesOf]
  apply filter_eq_singleton_of_nodup _ (keysOf_nodup l) a
    ((mem_keysOf_iff l a).mpr ha)
  intro x hx
  rw [beq_iff_eq]
  constructor
  · intro hcx
    by_contra hne
    have h1 := hstrict x ((mem_keysOf_iff l x).mp hx) hne
    have h2 := count_le_max_count l a ha
    omega
  · rintro rfl
    have h1 : max_count l ≤ l.count x := by
      apply foldr_max_le
      intro v hv
      obtain ⟨b, hbk, rfl⟩ := List.mem_map.mp hv
      by_cases hbx : b = x
      · rw [hbx]
      · exact (hstrict b ((mem_keysOf_iff l b).mp hbk) hbx).le
    exact le_antisymm (count_le_max_count l x ha) h1

theorem getD_zero_mem (L : List ℕ) (h : L ≠ []) : L.getD 0 0 ∈ L := by
  cases L with
  | nil => exact absurd rfl h
  | cons a t => exact List.mem_cons_self a t

theorem take_indices_lt (dist : List ℚ) (k : ℕ) (perm : List ℕ)
    (hperm : perm.isPerm (List.range dist.length) = true) :
    ∀ i ∈ perm.take k, i < dist.length := by
  intro i hi
  have h1 : i ∈ perm := List.mem_of_mem_take hi
  have h2 : i ∈ List.range dist.length :=
    ((List.isPerm_iff.mp hperm).mem_iff).mp h1
  simpa using h2

theorem perm_length_eq (dist : List ℚ) (perm : List ℕ)
    (hperm : perm.isPerm (List.range dist.length) = true) :
    perm.length = dist.length := by
  have := (List.isPerm_iff.mp hperm).length_eq
  simpa using this

/-- The labels of the k selected nearest neighbors, in selection order. -/
def neighbor_labels {S : Type} (d : S → S → ℚ) (ap : List ℚ → ℕ → List ℕ)
    (st : KNNState S) (q : S) : List ℕ :=
  ((ap (st.X.map (fun x => d q x)) st.k).take st.k).map
    (fun i => st.y.getD i 0)

theorem neighbor_labels_ne_nil {S : Type} (d : S → S → ℚ)
    (ap : List ℚ → ℕ → List ℕ) (st : KNNState S) (q : S)
    (hk : 1 ≤ st.k) (hkN : st.k < st.X.length)
    (hperm : (ap (st.X.map (fun x => d q x)) st.k).isPerm
      (List.range (st.X.map (fun x => d q x)).length) = true) :
    neighbor_labels d ap st q ≠ [] := by
  rw [neighbor_labels, ← List.length_pos, List.length_map, List.length_take,
    perm_length_eq _ _ hperm, List.length_map]
  omega

theorem predict_one_eval {S : Type} (d : S → S → ℚ) (ap : List ℚ → ℕ → List ℕ)
    (ch : List ℕ → ℕ) (st : KNNState S) (q : S)
    (hkN : st.k < st.X.length) (hlen : st.y.length = st.X.length)
    (hperm : (ap (st.X.map (fun x => d q x)) st.k).isPerm
      (List.range (st.X.map (fun x => d q x)).length) = true) :
    predict_one d ap ch st q =
      .ok (ch (modesOf (neighbor_labels d ap st q))) := by
  rw [predict_one]
  rw [if_pos (by rw [List.length_map]; exact hkN)]
  rw [if_pos]
  · rfl
  · rw [List.all_eq_true]
    intro i hi
    have := take_indices_lt _ _ _ hperm i hi
    rw [List.length_map] at this
    simp only [decide_eq_true_eq]
    omega

/-- C5: for every fitted k-NN classifier with 1 <= k < N references and
labels parallel to the references, and every argpartition output meeting
numpy's contract: prediction succeeds and equals random.choice of the modal
labels; the k selected reference indices have distances no larger than every
unselected reference; the modal-label list holds exactly the labels tied for
the highest tally among the k neighbor labels; the chosen label is always
one of the modal labels; and when a single label has the strictly highest
tally, the prediction equals it for every possible random draw. -/
theorem c5_knn_modal_prediction {S : Type} (d : S → S → ℚ)
    (ap : List ℚ → ℕ → List ℕ) (ch : List ℕ → ℕ) (st : KNNState S) (q : S)
    (hk : 1 ≤ st.k) (hkN : st.k < st.X.length)
    (hlen : st.y.length = st.X.length)
    (hap : IsArgpartition (st.X.map (fun x => d q x)) st.k
      (ap (st.X.map (fun x => d q x)) st.k))
    (hch : ∀ L : List ℕ, L ≠ [] → ch L ∈ L) :
    predict_one d ap ch st q =
      .ok (ch (modesOf (neighbor_labels d ap st q))) ∧
    (∀ a ∈ (ap (st.X.map (fun x => d q x)) st.k).take st.k,
      ∀ b ∈ (ap (st.X.map (fun x => d q x)) st.k).drop st.k,
        (st.X.map (fun x => d q x)).getD a 0 ≤
          (st.X.map (fun x => d q x)).getD b 0) ∧
    (∀ lab, lab ∈ modesOf (neighbor_labels d ap st q) ↔
      lab ∈ neighbor_labels d ap st q ∧
      ∀ b ∈ neighbor_labels d ap st q,
        (neighbor_labels d ap st q).count b ≤
          (neighbor_labels d ap st q).count lab) ∧
    ch (modesOf (neighbor_labels d ap st q)) ∈
      modesOf (neighbor_labels d ap st q) ∧
    (∀ a ∈ neighbor_labels d ap st q,
      (∀ b ∈ neighbor_labels d ap st q, b ≠ a →
        (neighbor_labels d ap st q).count b <
          (neighbor_labels d ap st q).count a) →
      predict_one d ap ch st q = .ok a) := by
  have heval := predict_one_eval d ap ch st q hkN hlen hap.1
  have hmodnil := modesOf_ne_nil _
    (neighbor_labels_ne_nil d ap st q hk hkN hap.1)
  refine ⟨heval, ?_, fun lab => mem_modesOf_iff _ lab, hch _ hmodnil, ?_⟩
  · intro a ha b hb
    obtain ⟨p, hp, hpa⟩ := List.mem_iff_getElem.mp ha
    obtain ⟨j, hj, hjb⟩ := List.mem_iff_getElem.mp hb
    have hp' : p < (ap (st.X.map (fun x => d q x)) st.k).length := by
      rw [List.length_take] at hp
      omega
    have hpk : p ≤ st.k := by
      rw [List.length_take] at hp
      omega
    have hj' : st.k + j < (ap (st.X.map (fun x => d q x)) st.k).length := by
      rw [List.length_drop] at hj
      omega
    have h2 := hap.2 p hp' (st.k + j) hj' hpk (Nat.le_add_right ..)
    rw [List.getElem_take] at hpa
    rw [List.getElem_drop] at hjb
    rw [List.getD_eq_getElem _ _ hp', hpa] at h2
    rw [List.getD_eq_getElem _ _ hj', hjb] at h2
    exact h2
  · intro a ha hstrict
    rw [heval, modesOf_eq_singleton _ a ha hstrict]
    have := hch [a] (by simp)
    simp only [List.mem_singleton] at this
    rw [this]

/-- A constant pairwise distance (the delegated measure may be anything). -/
def d0 : Unit → Unit → ℚ := fun _ _ => 0

/-- The identity permutation as a concrete argpartition output. -/
def apRange : List ℚ → ℕ → List ℕ := fun dist _ => List.range dist.length

/-- A concrete random draw: always the first element. -/
def chHead : List ℕ → ℕ := fun L => L.getD 0 0

/-- A concrete fitted state: three references, labels [7, 7, 9], k = 2. -/
def witKnn : KNNState Unit := ⟨2, 1, [(), (), ()], [7, 7, 9]⟩

/-- Witness for C5: with k = 2 of 3 references and neighbor labels [7, 7],
label 7 has the strictly highest tally and is predicted. -/
theorem c5_knn_modal_prediction_witness :
    predict_one d0 apRange chHead witKnn () = .ok 7 := by
  have hap : IsArgpartition (witKnn.X.map (fun x => d0 () x)) witKnn.k
      (apRange (witKnn.X.map (fun x => d0 () x)) witKnn.k) := by
    constructor
    · decide
    · intro p hp q hq h1 h2
      have hz : ∀ i : ℕ, (witKnn.X.map (fun x => d0 () x)).getD i 0 = 0 := by
        intro i
        match i with
        | 0 => rfl
        | 1 => rfl
        | 2 => rfl
        | (n + 3) => rfl
      rw [hz, hz]
  exact (c5_knn_modal_prediction d0 apRange chHead witKnn () (by decide)
    (by decide) rfl hap (fun L h => getD_zero_mem L h)).2.2.2.2 7
    (by decide) (by decide)

theorem mapM_chunks_flatten {α β ε : Type} (f : α → Except ε β)
    (L : List (List α)) :
    (L.mapM (fun c : List α => c.mapM f)).map List.flatten =
      L.flatten.mapM f := by
  induction L with
  | nil => rfl
  | cons c L ih =>
    rw [List.flatten_cons, List.mapM_append, List.mapM_cons]
    cases hc : c.mapM f with
    | error e => rfl
    | ok a =>
      cases hL : L.mapM (fun c : List α => c.mapM f) with
      | error e =>
        have h2 : L.flatten.mapM f = .error e := by
          rw [← ih, hL]
          rfl
        rw [h2]
        rfl
      | ok as =>
        have h2 : L.flatten.mapM f = .ok as.flatten := by
          rw [← ih, hL]
          rfl
        rw [h2]
        rfl

/-- C10: construction accepts every k >= 1 and radius >= 1 with no
reference-count restriction, and fit stores any reference set without
comparing k to its size; predict on a query raises exactly when k >= N
(the partition index is out of numpy's accepted range), and for k < N
every selected neighbor index is a valid index into the stored labels, so
the label lookup cannot fail and prediction returns normally. -/
theorem c10_partition_bounds {S : Type} (k radius : ℤ) (hk : 1 ≤ k)
    (hr : 1 ≤ radius) (st : KNNState S) (d : S → S → ℚ)
    (ap : List ℚ → ℕ → List ℕ) (ch : List ℕ → ℕ) (q : S)
    (hperm : (ap (st.X.map (fun x => d q x)) st.k).isPerm
      (List.range (st.X.map (fun x => d q x)).length) = true)
    (hlen : st.y.length = st.X.length) :
    dtwknn_init k radius = .ok (k, radius) ∧
    (∀ X : List S, ∀ y : List ℕ, dtwknn_fit (k, radius) X y =
      ⟨k.toNat, radius.toNat, X, y⟩) ∧
    (st.X.length ≤ st.k →
      predict_one d ap ch st q = .error "kth out of bounds") ∧
    (st.k < st.X.length →
      (∀ i ∈ (ap (st.X.map (fun x => d q x)) st.k).take st.k,
        i < st.y.length) ∧
      ∃ v, predict_one d ap ch st q = .ok v) := by
  refine ⟨?_, fun X y => rfl, ?_, ?_⟩
  · have h1 : restricted_integer k (fun v => decide (0 < v)) = .ok k := by
      rw [restricted_integer, if_pos (by simp only [decide_eq_true_eq]; omega)]
    have h2 : restricted_integer radius (fun v => decide (0 < v)) = .ok radius := by
      rw [restricted_integer, if_pos (by simp only [decide_eq_true_eq]; omega)]
    rw [dtwknn_init, h1, h2]
  · intro hge
    simp only [predict_one, List.length_map]
    rw [if_neg (by omega)]
  · intro hlt
    have hidx : ∀ i ∈ (ap (st.X.map (fun x => d q x)) st.k).take st.k,
        i < st.y.length := by
      intro i hi
      have := take_indices_lt _ _ _ hperm i hi
      rw [List.length_map] at this
      omega
    exact ⟨hidx, _, predict_one_eval d ap ch st q hlt hlen hperm⟩

/-- Witness for C10: k = 2 on 3 references predicts normally; k = 5 on a
single reference raises the partition bound error; construction accepts
both. -/
theorem c10_partition_bounds_witness :
    dtwknn_init 2 1 = .ok (2, 1) ∧
    (∃ v, predict_one d0 apRange chHead witKnn () = .ok v) ∧
    predict_one d0 apRange chHead (⟨5, 1, [()], [4]⟩ : KNNState Unit) () =
      .error "kth out of bounds" := by
  refine ⟨?_, ?_, ?_⟩
  · exact (c10_partition_bounds 2 1 (by omega) (by omega) witKnn d0 apRange
      chHead () (by decide) rfl).1
  · exact ((c10_partition_bounds 2 1 (by omega) (by omega) witKnn d0 apRange
      chHead () (by decide) rfl).2.2.2 (by decide)).2
  · exact (c10_partition_bounds 5 1 (by omega) (by omega) _ d0 apRange
      chHead () (by decide) rfl).2.2.1 (by decide)

end DTWKNN

/-- C4: for both classifiers, batch prediction with any worker count
n >= 1 equals serial batch prediction on the same input: the contiguous
chunks of np.array_split, processed independently and concatenated in
submission order, reproduce the serial result - identical label sequences,
and identical score matrices for the ensemble. -/
theorem c4_parallel_serial_equivalence {S T : Type} (lg : ℚ → ℚ)
    (models : List (HMM.GMMHMM S)) (pr : HMM.Prior) (X : List S)
    (d : T → T → ℚ) (ap : List ℚ → ℕ → List ℕ) (ch : List ℕ → ℕ)
    (st : DTWKNN.KNNState T) (Xq : List T) (n : ℕ) (hn : 1 ≤ n)
    (hX : X ≠ []) :
    HMM.predict_batch lg models pr X n = HMM.predict_batch lg models pr X 1 ∧
    DTWKNN.knn_predict_batch d ap ch st Xq n =
      DTWKNN.knn_predict_batch d ap ch st Xq 1 := by
  constructor
  · rw [HMM.predict_batch, HMM.predict_batch,
      HMM.batch_scores_eq_serial lg models pr X n hn hX,
      HMM.batch_scores_eq_serial lg models pr X 1 le_rfl hX]
  · rw [DTWKNN.knn_predict_batch, DTWKNN.knn_predict_batch]
    by_cases h1 : n = 1
    · rw [h1]
    · rw [if_neg h1, if_pos rfl, DTWKNN.mapM_chunks_flatten,
        flatten_array_split _ _ hn]

namespace DTWKNN

/-- Byte-lexicographic comparison of character lists: the order in which
HDF5 iterates group member names (digits compare by code point). -/
def strLt : List Char → List Char → Bool
  | [], [] => false
  | [], _ :: _ => true
  | _ :: _, [] => false
  | c :: cs, e :: es =>
      if c < e then true else if e < c then false else strLt cs es

/-- Insertion into a list sorted by the boolean order. -/
def insertByLt (lt : ℕ → ℕ → Bool) (a : ℕ) : List ℕ → List ℕ
  | [] => [a]
  | b :: t => if lt a b then a :: b :: t else b :: insertByLt lt a t

/-- Insertion sort by the boolean order. -/
def sortByLt (lt : ℕ → ℕ → Bool) : List ℕ → List ℕ
  | [] => []
  | a :: t => insertByLt lt a (sortByLt lt t)

/-- The order in which h5py iterates the datasets that `save` wrote under
the decimal names "0", ..., "N-1": lexicographic in the name (HDF5 sorts
links alphabetically), not numeric. -/
def h5_key_order (n : ℕ) : List ℕ :=
  sortByLt (fun i j => strLt (Nat.repr i).toList (Nat.repr j).toList)
    (List.range n)

/-- The HDF5 layout written by `DTWKNN.save`: the hyper-parameters, each
reference sequence as a dataset named str(i), and the label array in
storage order. -/
structure SavedKNN (S : Type) where
  k : ℕ
  radius : ℕ
  X : List S
  y : List ℕ

/-- `DTWKNN.save` stores the fitted state verbatim (sequence i under the
dataset name str(i)). -/
def knn_save {S : Type} (st : KNNState S) : SavedKNN S :=
  ⟨st.k, st.radius, st.X, st.y⟩

/-- `DTWKNN.load`: hyper-parameters and labels are restored in storage
order, but the sequences are rebuilt by iterating X.keys() - h5py's
lexicographic name order - so for 11 or more references the sequences are
permuted while the labels are not. -/
def knn_load {S : Type} (f : SavedKNN S) : KNNState S :=
  ⟨f.k, f.radius, (h5_key_order f.X.length).filterMap (fun i => f.X[i]?), f.y⟩

/-- Eleven reference sequences with values 0..10 (embedded as rationals),
each labeled by its own index, k = 1. -/
def cexRef : KNNState ℚ :=
  ⟨1, 1, [0, 1, 2, 3, 4, 5, 6, 7, 8, 9, 10],
    [0, 1, 2, 3, 4, 5, 6, 7, 8, 9, 10]⟩

/-- The delegated elastic distance, instantiated on scalar sequences. -/
def absDist : ℚ → ℚ → ℚ := fun a b => |a - b|

/-- A concrete argpartition output for the two distance lists that arise
below; in both, the unique nearest reference is placed first, as every
valid numpy result must for k = 1. -/
def cexAp : List ℚ → ℕ → List ℕ := fun dist _ =>
  if dist.getD 2 0 = 0 then [2, 1, 0, 3, 4, 5, 6, 7, 8, 9, 10]
  else [3, 1, 0, 4, 2, 5, 6, 7, 8, 9, 10]

/-- The state `load(save(cexRef))` actually reconstructs: the sequences in
lexicographic dataset-name order, the labels in the original order. -/
def cexLoaded : KNNState ℚ :=
  ⟨1, 1, [0, 1, 10, 2, 3, 4, 5, 6, 7, 8, 9],
    [0, 1, 2, 3, 4, 5, 6, 7, 8, 9, 10]⟩

theorem knn_load_cexRef : knn_load (knn_save cexRef) = cexLoaded := rfl

/-- C1 fails on the code: the k-NN save/load round trip changes the
prediction.  On 11 references labeled by their own values, a query equal to
reference 2 is predicted 2 by the fitted classifier but 3 by the reloaded
one: load pairs the lexicographically reordered sequences ("10" sorts
before "2") with the unreordered labels. -/
theorem c1_roundtrip_bug :
    predict_one absDist cexAp chHead cexRef 2 = .ok 2 ∧
    predict_one absDist cexAp chHead (knn_load (knn_save cexRef)) 2 = .ok 3 ∧
    knn_load (knn_save cexRef) ≠ cexRef := by
  refine ⟨?_, ?_, ?_⟩
  · have hd : (cexRef.X.map (fun x => absDist 2 x)).getD 2 0 = 0 := by
      norm_num [cexRef, absDist]
    simp only [predict_one]
    rw [if_pos (by norm_num [cexRef])]
    rw [cexAp, if_pos hd]
    rw [if_pos (by decide)]
    show (Except.ok (chHead (modesOf [2])) : Except String ℕ) = .ok 2
    rw [modesOf_eq_singleton [2] 2 (by decide) (by decide)]
    rfl
  · rw [knn_load_cexRef]
    have hd : (cexLoaded.X.map (fun x => absDist 2 x)).getD 2 0 = 8 := by
      norm_num [cexLoaded, absDist]
    have hne : ¬ (cexLoaded.X.map (fun x => absDist 2 x)).getD 2 0 = 0 := by
      rw [hd]
      norm_num
    have hlt : cexLoaded.k < (cexLoaded.X.map (fun x => absDist 2 x)).length := by
      norm_num [cexLoaded]
    simp only [predict_one]
    rw [if_pos hlt]
    rw [cexAp, if_neg hne]
    rw [if_pos (by decide)]
    show (Except.ok (chHead (modesOf [3])) : Except String ℕ) = .ok 3
    rw [modesOf_eq_singleton [3] 3 (by decide) (by decide)]
    rfl
  · rw [knn_load_cexRef]
    intro h
    have hX : cexLoaded.X = cexRef.X := congrArg KNNState.X h
    have h2 : (10 : ℚ) = 2 := by
      have h3 := congrArg (fun l : List ℚ => l.getD 2 0) hX
      simpa [cexLoaded, cexRef] using h3
    norm_num at h2

end DTWKNN

namespace Variants

/-- Modelled from the spec: the base HMM class
(sequentia.models.hmm.variants.base, absent from the sources - only its
subclasses are present) keeps the set of parameters excluded from
Baum-Welch re-estimation ("explicit pre-fit parameter-freeze flags");
freeze(params) marks each given parameter as untrainable by adding it to
that set. -/
def base_freeze (frozen : Finset Char) (params : List Char) : Finset Char :=
  frozen ∪ params.toFinset

/-- `GaussianMixtureHMM.freeze`: the body is super().freeze(params),
delegated to whatever the base class implements. -/
def gaussian_freeze (baseFreeze : Finset Char → List Char → Finset Char)
    (frozen : Finset Char) (params : List Char) : Finset Char :=
  baseFreeze frozen params

/-- `GaussianMixtureHMM.unfreeze`: the source body is super().freeze(params)
- the same call as freeze. -/
def gaussian_unfreeze (baseFreeze : Finset Char → List Char → Finset Char)
    (frozen : Finset Char) (params : List Char) : Finset Char :=
  baseFreeze frozen params

/-- `MultinomialHMM.freeze`: the body is super().freeze(params). -/
def multinomial_freeze (baseFreeze : Finset Char → List Char → Finset Char)
    (frozen : Finset Char) (params : List Char) : Finset Char :=
  baseFreeze frozen params

/-- `MultinomialHMM.unfreeze`: the source body is super().freeze(params)
- the same call as freeze. -/
def multinomial_unfreeze (baseFreeze : Finset Char → List Char → Finset Char)
    (frozen : Finset Char) (params : List Char) : Finset Char :=
  baseFreeze frozen params

/-- C9: for both HMM variants, unfreeze is extensionally equal to freeze:
whatever the base freeze implementation is, both methods delegate the very
same call to it; and with the base behaviour modelled from the spec (freeze
adds the given parameters to the frozen set), a parameter frozen earlier
stays frozen after every unfreeze call. -/
theorem c9_unfreeze_is_freeze :
    (∀ baseFreeze : Finset Char → List Char → Finset Char,
      ∀ frozen params,
        gaussian_unfreeze baseFreeze frozen params =
          gaussian_freeze baseFreeze frozen params ∧
        multinomial_unfreeze baseFreeze frozen params =
          multinomial_freeze baseFreeze frozen params) ∧
    (∀ frozen params c, c ∈ frozen →
      c ∈ gaussian_unfreeze base_freeze frozen params ∧
      c ∈ multinomial_unfreeze base_freeze frozen params) := by
  refine ⟨fun bf frozen params => ⟨rfl, rfl⟩, ?_⟩
  intro frozen params c hc
  exact ⟨Finset.mem_union_left _ hc, Finset.mem_union_left _ hc⟩

/-- Witness for C9: the initial-state flag frozen beforehand survives an
unfreeze of the transition flag, in both variants. -/
theorem c9_unfreeze_is_freeze_witness :
    's' ∈ gaussian_unfreeze base_freeze {'s'} ['t'] ∧
    's' ∈ multinomial_unfreeze base_freeze {'s'} ['t'] :=
  c9_unfreeze_is_freeze.2 {'s'} ['t'] 's' (by decide)

end Variants

/-- Witness for C4 with four workers on concrete two-element batches. -/
theorem c4_parallel_serial_equivalence_witness :
    (HMM.predict_batch HMM.lgZero HMM.witModelsSorted .uniform [(), ()] 4 =
      HMM.predict_batch HMM.lgZero HMM.witModelsSorted .uniform [(), ()] 1) ∧
    (DTWKNN.knn_predict_batch DTWKNN.d0 DTWKNN.apRange DTWKNN.chHead
        DTWKNN.witKnn [(), ()] 4 =
      DTWKNN.knn_predict_batch DTWKNN.d0 DTWKNN.apRange DTWKNN.chHead
        DTWKNN.witKnn [(), ()] 1) :=
  c4_parallel_serial_equivalence HMM.lgZero HMM.witModelsSorted .uniform
    [(), ()] DTWKNN.d0 DTWKNN.apRange DTWKNN.chHead DTWKNN.witKnn [(), ()] 4
    (by omega) (by simp)

end Sequentia
